import Mathlib

/-!
Verification development for the gradus repository: a DAG execution engine for
composable data-transformation pipelines.  Two implementations coexist in the
code base and are embedded here separately:

* `Millet`: the explicit graph-container engine (`src/millet/core/multipipeline.py`
  and `src/millet/core/base.py`), which stores the DAG as nodes plus edge-level
  field mappings and executes in lexicographic topological order.
* `Steppy`: the tree-recursive `Step` engine (`src/steppy/base.py`,
  `src/steppy/adapter.py`) and its legacy variant (`src/steps/base.py`).

Payloads (Python dicts from string keys to arbitrary values) are modelled as
association lists `List (String × V)`; Python dict assignment is modelled by
`dictSet`, which keeps insertion order like CPython dicts.  Filesystem-backed
stores (cached outputs, saved outputs, persisted transformers) are modelled as
explicit association-list stores threaded through execution.  Raised Python
exceptions are modelled as `Except` error results.
-/

set_option autoImplicit false

namespace Gradus

/-- A payload: a Python dict from string keys to values of type `V`. -/
abbrev Payload (V : Type) := List (String × V)

/-- Python dict assignment `d[k] = v`: overwrite in place if the key is
present (keeping insertion order), else append at the end. -/
def dictSet {α : Type} (l : List (String × α)) (k : String) (v : α) :
    List (String × α) :=
  if l.any (fun kv => kv.1 == k) then
    l.map (fun kv => if kv.1 == k then (k, v) else kv)
  else
    l ++ [(k, v)]

/-- Python `d.update(q)` / `{**d, **q}`: assign every entry of `q` into `d`
in order. -/
def dictUpdate {α : Type} (l q : List (String × α)) : List (String × α) :=
  q.foldl (fun acc kv => dictSet acc kv.1 kv.2) l

namespace Millet

/-!
## Millet data model (`src/millet/core/base.py`)

`BaseStep` has four runtime capabilities distinguished by `isinstance` checks
in the engine: `DataLoader`, `SupervTransformer`, `UnsupervTransformer`, and
any other `BaseStep` subclass (recognized by no branch of `run`).  Transformer
state mutation is irrelevant to the engine (each node runs once per call), so
a step is modelled by its input/output behaviour.
-/

/-- A registered step, tagged by its capability.  `other` stands for a
`BaseStep` subclass that is none of the three recognized capabilities. -/
inductive MStep (V : Type) where
  | dataLoader (load_data : Payload V → Payload V)
  | superv (fit_transform : Payload V → Payload V → Payload V)
           (transform : Payload V → Payload V)
  | unsuperv (fit_transform : Payload V → Payload V)
             (transform : Payload V → Payload V)
  | other

def MStep.isDataLoader {V : Type} : MStep V → Bool
  | .dataLoader _ => true
  | _ => false

def MStep.isSuperv {V : Type} : MStep V → Bool
  | .superv _ _ => true
  | _ => false

def MStep.isUnsuperv {V : Type} : MStep V → Bool
  | .unsuperv _ _ => true
  | _ => false

/-- Per-edge metadata: networkx edge attribute dicts `source_data_keys` and
`source_superv_keys`, each mapping a new data key to the source output key.
An attribute that was never created is represented by the empty list (the
code only creates an attribute right before inserting into it). -/
structure EdgeData where
  dataKeys : List (String × String)
  supervKeys : List (String × String)
  deriving DecidableEq

def EdgeData.empty : EdgeData := ⟨[], []⟩

/-- The `MultiPipeline` graph: a networkx `DiGraph` whose nodes carry a
`step` attribute (`none` models a node silently created by `add_edge`, which
has no `step` attribute) and an `output` attribute (the assoc list `outputs`;
a missing entry models `output = None`), and whose edges carry `EdgeData`. -/
structure MultiPipeline (V : Type) where
  nodes : List (String × Option (MStep V))
  outputs : List (String × Payload V)
  edges : List ((String × String) × EdgeData)

def nodeNames {V : Type} (g : MultiPipeline V) : List String :=
  g.nodes.map (fun nd => nd.1)

def edgePairs {V : Type} (g : MultiPipeline V) : List (String × String) :=
  g.edges.map (fun e => e.1)

/-- `self._graph.has_node(n)`. -/
def hasNodeB {V : Type} (g : MultiPipeline V) (n : String) : Bool :=
  g.nodes.any (fun nd => nd.1 == n)

/-- `self._graph.nodes[n]['step']` (`none` when the node or attribute is
missing, which in Python raises a `KeyError` at use sites). -/
def stepOf {V : Type} (g : MultiPipeline V) (n : String) : Option (MStep V) :=
  match g.nodes.lookup n with
  | some (some s) => some s
  | _ => none

/-- `get_step_output`: the node's `output` attribute (`none` = Python `None`
or missing attribute). -/
def lookupOutput {V : Type} (g : MultiPipeline V) (n : String) :
    Option (Payload V) :=
  g.outputs.lookup n

/-- `self._graph.nodes[n]['output'] = p`. -/
def setOutput {V : Type} (g : MultiPipeline V) (n : String) (p : Payload V) :
    MultiPipeline V :=
  { g with outputs := (n, p) :: g.outputs }

/-- `clear_step_output`: sets the node's output back to `None`. -/
def clear_step_output {V : Type} (g : MultiPipeline V) (n : String) :
    MultiPipeline V :=
  { g with outputs := g.outputs.filter (fun kv => kv.1 ≠ n) }

/-- `clear_all_outputs`: clears the output of every node in the graph. -/
def clear_all_outputs {V : Type} (g : MultiPipeline V) : MultiPipeline V :=
  g.nodes.foldl (fun acc nd => clear_step_output acc nd.1) g

/-!
### Registration (`_check_add_step`, `add_dataloader`, `add_superv`,
`add_unsuperv`, `_connect_input_mapping`, `_connect_superv_mapping`)

Registration mutates the pipeline object; a raised exception leaves it as it
was.  Operations therefore return the (possibly updated) graph together with
an optional raised exception.
-/

inductive MilletErr where
  | nameError
  | typeError
  deriving DecidableEq

/-- `_check_add_step`: raises `MilletNameException` when a node of that name
already exists, otherwise adds the node (with `output = None`). -/
def check_add_step {V : Type} (g : MultiPipeline V) (step : MStep V)
    (node_name : String) : MultiPipeline V × Option MilletErr :=
  if hasNodeB g node_name then
    (g, some .nameError)
  else
    ({ g with nodes := g.nodes ++ [(node_name, some step)] }, none)

/-- `add_dataloader`: type-checks the capability then registers the node. -/
def add_dataloader {V : Type} (g : MultiPipeline V) (dataloader : MStep V)
    (node_name : String) : MultiPipeline V × Option MilletErr :=
  if !dataloader.isDataLoader then
    (g, some .typeError)
  else
    check_add_step g dataloader node_name

/-- networkx `add_edge` silently adds missing endpoint nodes (without a
`step` attribute). -/
def ensureNode {V : Type} (g : MultiPipeline V) (n : String) :
    MultiPipeline V :=
  if hasNodeB g n then g else { g with nodes := g.nodes ++ [(n, none)] }

def hasEdgeB {V : Type} (g : MultiPipeline V) (s t : String) : Bool :=
  g.edges.any (fun e => e.1.1 == s && e.1.2 == t)

def addEdgeRaw {V : Type} (g : MultiPipeline V) (s t : String) :
    MultiPipeline V :=
  let g' := ensureNode (ensureNode g s) t
  { g' with edges := g'.edges ++ [((s, t), EdgeData.empty)] }

def setEdgeDataKey {V : Type} (g : MultiPipeline V) (s t newKey srcKey : String) :
    MultiPipeline V :=
  { g with edges := g.edges.map (fun e =>
      if e.1.1 == s && e.1.2 == t then
        (e.1, { e.2 with dataKeys := dictSet e.2.dataKeys newKey srcKey })
      else e) }

def setEdgeSupervKey {V : Type} (g : MultiPipeline V) (s t newKey srcKey : String) :
    MultiPipeline V :=
  { g with edges := g.edges.map (fun e =>
      if e.1.1 == s && e.1.2 == t then
        (e.1, { e.2 with supervKeys := dictSet e.2.supervKeys newKey srcKey })
      else e) }

/-- `_connect_input_mapping`: each item `new_data_key ↦ (src_name, src_key)`
adds the edge if absent and records the key mapping on it. -/
def connect_input_mapping {V : Type} (g : MultiPipeline V) (node_name : String)
    (input_mapping : List (String × String × String)) : MultiPipeline V :=
  input_mapping.foldl (fun acc item =>
    let src := item.2.1
    let acc := if hasEdgeB acc src node_name then acc else addEdgeRaw acc src node_name
    setEdgeDataKey acc src node_name item.1 item.2.2) g

/-- `_connect_superv_mapping`. -/
def connect_superv_mapping {V : Type} (g : MultiPipeline V) (node_name : String)
    (superv_mapping : List (String × String × String)) : MultiPipeline V :=
  superv_mapping.foldl (fun acc item =>
    let src := item.2.1
    let acc := if hasEdgeB acc src node_name then acc else addEdgeRaw acc src node_name
    setEdgeSupervKey acc src node_name item.1 item.2.2) g

/-- `add_superv`: type check, register, wire input and supervision mappings. -/
def add_superv {V : Type} (g : MultiPipeline V) (transformer : MStep V)
    (node_name : String) (input_mapping superv_mapping : List (String × String × String)) :
    MultiPipeline V × Option MilletErr :=
  if !transformer.isSuperv then
    (g, some .typeError)
  else
    match check_add_step g transformer node_name with
    | (g', some e) => (g', some e)
    | (g', none) =>
        (connect_superv_mapping (connect_input_mapping g' node_name input_mapping)
          node_name superv_mapping, none)

/-- `add_unsuperv`: type check, register, wire the input mapping. -/
def add_unsuperv {V : Type} (g : MultiPipeline V) (transformer : MStep V)
    (node_name : String) (input_mapping : List (String × String × String)) :
    MultiPipeline V × Option MilletErr :=
  if !transformer.isUnsuperv then
    (g, some .typeError)
  else
    match check_add_step g transformer node_name with
    | (g', some e) => (g', some e)
    | (g', none) => (connect_input_mapping g' node_name input_mapping, none)

/-!
### Ancestor computation (`networkx.algorithms.dag.ancestors`)

`ancestors(G, n)` is the set of nodes with a directed path to `n`, excluding
`n` itself; it raises when `n` is not a node of the graph.  Reachability is
computed by a fuel-bounded search; `|edges|` hops suffice because a shortest
path never repeats a node and every non-final node on it is an edge source.
-/

/-- Bounded reachability along the directed edges: `reachesB E f a b` is true
iff there is a directed path from `a` to `b` of at most `f` hops. -/
def reachesB (E : List (String × String)) : Nat → String → String → Bool
  | 0, a, b => a == b
  | f + 1, a, b =>
      a == b || E.any (fun e => e.1 == a && reachesB E f e.2 b)

/-- `ancestors(self._graph, n)`: all graph nodes with a path to `n`, except
`n` itself. -/
def ancestorsOf {V : Type} (g : MultiPipeline V) (n : String) : List String :=
  (nodeNames g).filter (fun u =>
    u ≠ n && reachesB (edgePairs g) (edgePairs g).length u n)

inductive RunErr where
  | notInGraph (n : String)   -- networkx: node not in the graph
  | reduceEmpty               -- functools.reduce of an empty sequence, no initial value
  | cycle                     -- networkx: graph contains a cycle
  | keyError                  -- Python KeyError (missing dict key / node attribute)
  | noneOutput                -- subscripting a None output (Python TypeError)
  | typeError                 -- MilletTypeException: unrecognized step class
  deriving DecidableEq

/-- The list comprehension `[ancestors(self._graph, n) for n in up_to]`:
evaluates `ancestors` for every requested node, raising on the first node
that is not in the graph. -/
def ancestorsList {V : Type} (g : MultiPipeline V) :
    List String → Except RunErr (List (List String))
  | [] => .ok []
  | n :: rest =>
      if hasNodeB g n then
        (ancestorsList g rest).map (fun sets => ancestorsOf g n :: sets)
      else
        .error (.notInGraph n)

/-- `functools.reduce(f, l)` with no initial value: raises on an empty
sequence, otherwise left-folds starting from the first element. -/
def reduce1 {α : Type} (f : α → α → α) : List α → Except RunErr α
  | [] => .error .reduceEmpty
  | x :: xs => .ok (xs.foldl f x)

/-- `set.union` on sets modelled as lists: membership union. -/
def listUnion (a b : List String) : List String :=
  a ++ b.filter (fun x => !a.contains x)

/-!
### Lexicographic topological sort
(`networkx.algorithms.dag.lexicographical_topological_sort`)

Kahn's algorithm: repeatedly emit the lexicographically smallest remaining
node all of whose in-edges come from already-emitted nodes; fail (networkx
raises `NetworkXUnfeasible`) if a cycle blocks progress.
-/

/-- A node of `rem` is ready when no edge from a node still in `rem` targets
it. -/
def noPredIn (E : List (String × String)) (rem : List String) (n : String) :
    Bool :=
  E.all (fun e => e.2 != n || !rem.contains e.1)

/-- The lexicographically smallest element of a list of names. -/
def minName? : List String → Option String
  | [] => none
  | x :: xs =>
      match minName? xs with
      | none => some x
      | some m => some (if m.data < x.data then m else x)

/-- Kahn's algorithm with fuel; fuel `rem.length` always suffices because
every step removes one remaining node. -/
def kahn (E : List (String × String)) : Nat → List String → Option (List String)
  | 0, rem => if rem.isEmpty then some [] else none
  | fuel + 1, rem =>
      if rem.isEmpty then some [] else
      match minName? (rem.filter (noPredIn E rem)) with
      | none => none
      | some m => (kahn E fuel (rem.erase m)).map (fun l => m :: l)

def lexTopoSort (nodes : List String) (E : List (String × String)) :
    Option (List String) :=
  kahn E nodes.length nodes

/-!
### Execution (`MultiPipeline.run`, `_translate_inputs`, `_translate_superv`)
-/

/-- `_translate_inputs`: replay every in-edge's `source_data_keys` mapping
against the already-computed predecessor outputs. -/
def translate_inputs {V : Type} (g : MultiPipeline V) (node_name : String) :
    Except RunErr (Payload V) :=
  (g.edges.filter (fun e => e.1.2 == node_name)).foldlM (fun acc e =>
    e.2.dataKeys.foldlM (fun acc kk =>
      match lookupOutput g e.1.1 with
      | none => .error .noneOutput
      | some src_output =>
          match src_output.lookup kk.2 with
          | none => .error .keyError
          | some v => .ok (dictSet acc kk.1 v)) acc) []

/-- `_translate_superv`: same replay for `source_superv_keys`. -/
def translate_superv {V : Type} (g : MultiPipeline V) (node_name : String) :
    Except RunErr (Payload V) :=
  (g.edges.filter (fun e => e.1.2 == node_name)).foldlM (fun acc e =>
    e.2.supervKeys.foldlM (fun acc kk =>
      match lookupOutput g e.1.1 with
      | none => .error .noneOutput
      | some src_output =>
          match src_output.lookup kk.2 with
          | none => .error .keyError
          | some v => .ok (dictSet acc kk.1 v)) acc) []

/-- The body of `run`'s per-node loop: dispatch on the step's capability,
execute it, and cache its output on the node. -/
def execNode {V : Type} (g : MultiPipeline V) (input_info : Payload V)
    (fit_node_names : List String) (node_name : String) :
    Except RunErr (MultiPipeline V) :=
  match stepOf g node_name with
  | none => .error .keyError
  | some (.dataLoader load_data) =>
      .ok (setOutput g node_name (load_data input_info))
  | some (.superv fit_transform transform) =>
      (translate_inputs g node_name).bind (fun input_dict =>
        if node_name ∈ fit_node_names then
          (translate_superv g node_name).bind (fun superv_dict =>
            .ok (setOutput g node_name (fit_transform input_dict superv_dict)))
        else
          .ok (setOutput g node_name (transform input_dict)))
  | some (.unsuperv fit_transform transform) =>
      (translate_inputs g node_name).bind (fun input_dict =>
        if node_name ∈ fit_node_names then
          .ok (setOutput g node_name (fit_transform input_dict))
        else
          .ok (setOutput g node_name (transform input_dict)))
  | some .other => .error .typeError

/-- The `for node_name in lexicographical_topological_sort(...)` loop.
Returns the final graph, the list of nodes that completed execution, and the
raised exception if any. -/
def runNodes {V : Type} (g : MultiPipeline V) (input_info : Payload V)
    (fit_node_names : List String) :
    List String → MultiPipeline V × List String × Option RunErr
  | [] => (g, [], none)
  | n :: rest =>
      match execNode g input_info fit_node_names n with
      | .error e => (g, [], some e)
      | .ok g' =>
          let r := runNodes g' input_info fit_node_names rest
          (r.1, n :: r.2.1, r.2.2)

/-- `MultiPipeline.run`: clear all cached outputs; compute the union of the
ancestor closures of the requested outputs and fit targets; topologically
sort the induced subgraph lexicographically; execute each node; return the
requested outputs.  The result is the final graph state, the list of nodes
that completed execution, and the returned mapping or raised exception. -/
def run {V : Type} (g₀ : MultiPipeline V) (input_info : Payload V)
    (output_node_names fit_node_names : List String) :
    MultiPipeline V × List String ×
      Except RunErr (List (String × Option (Payload V))) :=
  let g := clear_all_outputs g₀
  let upTo := (output_node_names ++ fit_node_names).dedup
  match ancestorsList g upTo with
  | .error e => (g, [], .error e)
  | .ok ancSets =>
      match reduce1 listUnion ancSets with
      | .error e => (g, [], .error e)
      | .ok ancs =>
          let toRun := listUnion upTo ancs
          let subN := (nodeNames g).filter (fun x => toRun.contains x)
          let subE := (edgePairs g).filter (fun e =>
            toRun.contains e.1 && toRun.contains e.2)
          match lexTopoSort subN subE with
          | none => (g, [], .error .cycle)
          | some order =>
              match runNodes g input_info fit_node_names order with
              | (g', tr, some e) => (g', tr, .error e)
              | (g', tr, none) =>
                  (g', tr, .ok (output_node_names.map (fun n =>
                    (n, lookupOutput g' n))))

/-- Specification-level reachability along directed edges (reflexive and
transitive), used to state what an "ancestor closure" is. -/
inductive Reaches (E : List (String × String)) : String → String → Prop
  | refl (a : String) : Reaches E a a
  | head {a b c : String} : (a, b) ∈ E → Reaches E b c → Reaches E a c

/-- A concrete directed path witness: `leadsTo E a l b` holds when the nodes
of `l` chain `a` to `b` along edges of `E`. -/
def leadsTo (E : List (String × String)) : String → List String → String → Prop
  | a, [], b => a = b
  | a, c :: l, b => (a, c) ∈ E ∧ leadsTo E c l b

/-- Well-formed graph: node names are unique and every edge endpoint is a
registered node. -/
def WF {V : Type} (g : MultiPipeline V) : Prop :=
  (nodeNames g).Nodup ∧
    ∀ p ∈ edgePairs g, p.1 ∈ nodeNames g ∧ p.2 ∈ nodeNames g

/-!
## Transformer capability contract (`src/millet/core/base.py`,
`src/steppy/base.py` lines 411-497)

Python transformers mutate internal learned state in `fit`; the state is made
explicit here as a value of type `S` carried by the transformer.  `fit`
returns the transformer with updated state; `transform` reads the state.
-/

/-- `millet.core.base.SupervTransformer`: `fit` takes an input payload and a
supervision payload. -/
structure SupervTransformer (V S : Type) where
  state : S
  fitFn : S → Payload V → Payload V → S
  transformFn : S → Payload V → Payload V

def SupervTransformer.fit {V S : Type} (t : SupervTransformer V S)
    (input_dict superv_dict : Payload V) : SupervTransformer V S :=
  { t with state := t.fitFn t.state input_dict superv_dict }

def SupervTransformer.transform {V S : Type} (t : SupervTransformer V S)
    (input_dict : Payload V) : Payload V :=
  t.transformFn t.state input_dict

/-- `SupervTransformer.fit_transform`: `self.fit(input_dict, superv_dict)`
then `return self.transform(input_dict)`.  Returns the transform result and
the mutated transformer. -/
def SupervTransformer.fit_transform {V S : Type} (t : SupervTransformer V S)
    (input_dict superv_dict : Payload V) :
    Payload V × SupervTransformer V S :=
  let t' := t.fit input_dict superv_dict
  (t'.transform input_dict, t')

/-- `millet.core.base.UnsupervTransformer`: `fit` takes only the input
payload. -/
structure UnsupervTransformer (V S : Type) where
  state : S
  fitFn : S → Payload V → S
  transformFn : S → Payload V → Payload V

def UnsupervTransformer.fit {V S : Type} (t : UnsupervTransformer V S)
    (input_dict : Payload V) : UnsupervTransformer V S :=
  { t with state := t.fitFn t.state input_dict }

def UnsupervTransformer.transform {V S : Type} (t : UnsupervTransformer V S)
    (input_dict : Payload V) : Payload V :=
  t.transformFn t.state input_dict

/-- `UnsupervTransformer.fit_transform`: `self.fit(input_dict)` then
`return self.transform(input_dict)`. -/
def UnsupervTransformer.fit_transform {V S : Type} (t : UnsupervTransformer V S)
    (input_dict : Payload V) : Payload V × UnsupervTransformer V S :=
  let t' := t.fit input_dict
  (t'.transform input_dict, t')

end Millet

namespace Steppy

/-- `steppy.base.BaseTransformer`: `fit(*args, **kwargs)` and
`transform(*args, **kwargs)` receive the same keyword-argument payload; the
learned internal state is made explicit as a value of type `S`. -/
structure BaseTransformer (V S : Type) where
  state : S
  fitFn : S → Payload V → S
  transformFn : S → Payload V → Payload V

def BaseTransformer.fit {V S : Type} (t : BaseTransformer V S)
    (kwargs : Payload V) : BaseTransformer V S :=
  { t with state := t.fitFn t.state kwargs }

def BaseTransformer.transform {V S : Type} (t : BaseTransformer V S)
    (kwargs : Payload V) : Payload V :=
  t.transformFn t.state kwargs

/-- `BaseTransformer.fit_transform`: `self.fit(*args, **kwargs)` then
`return self.transform(*args, **kwargs)`. -/
def BaseTransformer.fit_transform {V S : Type} (t : BaseTransformer V S)
    (kwargs : Payload V) : Payload V × BaseTransformer V S :=
  let t' := t.fit kwargs
  (t'.transform kwargs, t')

/-!
## Step payload adapter (`src/steppy/adapter.py`)

Recipes are arbitrary Python values, dispatched on by runtime type and arity
inspection in `Adapter._construct`.  Python values relevant to that dispatch
are modelled by `PyObj`: strings, tuples, lists, dicts, and anything else
(`other`, carrying an opaque value of type `V`).
-/

/-- A Python value as seen by the adapter's recipe dispatch. -/
inductive PyObj (V : Type) where
  | str (s : String)
  | tupleV (items : List (PyObj V))
  | listV (items : List (PyObj V))
  | dictV (items : List (PyObj V × PyObj V))
  | other (v : V)

/-- Gathered inputs: step name to that step's output payload (a string-keyed
dict of Python values). -/
abbrev AllInputs (V : Type) := List (String × List (String × PyObj V))

inductive AdapterErr where
  | noSuchInput (input_name : String)            -- "No such input: '...'"
  | missingKey (input_name key : String)         -- "Input '...' didn't have '...' in its result."
  deriving DecidableEq

/-- `Adapter._construct_element`: extract `all_inputs[input_name][key]`,
raising `AdapterError` when the input name or key is absent. -/
def construct_element {V : Type} (all_inputs : AllInputs V)
    (input_name key : String) : Except AdapterErr (PyObj V) :=
  match all_inputs.lookup input_name with
  | none => .error (.noSuchInput input_name)
  | some input_results =>
      match input_results.lookup key with
      | none => .error (.missingKey input_name key)
      | some v => .ok v

mutual

/-- `Adapter._construct`: dispatch on the recipe's runtime type.  A tuple of
exactly two strings is a basic `(source, key)` extraction; other tuples,
lists and dicts recurse; anything else is a literal constant. -/
def construct {V : Type} (all_inputs : AllInputs V) :
    PyObj V → Except AdapterErr (PyObj V)
  | .tupleV [.str a, .str b] => construct_element all_inputs a b
  | .tupleV items => (constructList all_inputs items).map .tupleV
  | .listV items => (constructList all_inputs items).map .listV
  | .dictV items => (constructDict all_inputs items).map .dictV
  | recipe => .ok recipe

def constructList {V : Type} (all_inputs : AllInputs V) :
    List (PyObj V) → Except AdapterErr (List (PyObj V))
  | [] => .ok []
  | r :: rs =>
      (construct all_inputs r).bind (fun v =>
        (constructList all_inputs rs).map (fun vs => v :: vs))

/-- `Adapter._construct_dict` resolves both keys and values. -/
def constructDict {V : Type} (all_inputs : AllInputs V) :
    List (PyObj V × PyObj V) → Except AdapterErr (List (PyObj V × PyObj V))
  | [] => .ok []
  | kv :: rest =>
      (construct all_inputs kv.1).bind (fun k =>
        (construct all_inputs kv.2).bind (fun v =>
          (constructDict all_inputs rest).map (fun vs => (k, v) :: vs)))

end

/-- `Adapter.adapt`: resolve every named recipe independently, in recipe
insertion order. -/
def adapt {V : Type} (adapting_recipes : List (String × PyObj V))
    (all_inputs : AllInputs V) :
    Except AdapterErr (List (String × PyObj V)) :=
  adapting_recipes.foldlM (fun adapted nr =>
    (construct all_inputs nr.2).map (fun v => dictSet adapted nr.1 v)) []

/-!
## Default merge / unpack

`steppy.base.Step._unpack` merges sibling payloads and raises `StepsError`
when a key occurs in more than one input step; `steps.base.Step.unpack`
(the legacy variant) merges silently, later steps overwriting earlier ones.
-/

/-- The collision diagnostics collected by `_unpack`: each repeated key with
the list of step names providing it. -/
abbrev RepeatedKeys := List (String × List String)

inductive StepsErr where
  | collision (repeated_keys : RepeatedKeys)  -- StepsError from _unpack
  | keyError (k : String)                     -- Python KeyError
  | notFitted (name : String)                 -- ValueError('No transformer cached ...')
  | adapterFailed (name : String)             -- StepsError wrapping an AdapterError
  deriving DecidableEq

/-- `defaultdict(list)` append `key_to_step_names[key].append(step_name)`:
append to the existing entry, or create a fresh singleton entry. -/
def addKeyName (acc : RepeatedKeys) (k name : String) : RepeatedKeys :=
  if acc.any (fun e => e.1 == k) then
    acc.map (fun e => if e.1 == k then (e.1, e.2 ++ [name]) else e)
  else
    acc ++ [(k, [name])]

/-- The `key_to_step_names` table built by `_unpack`'s loop. -/
def keyToSteps {V : Type} (step_inputs : List (String × Payload V)) :
    RepeatedKeys :=
  step_inputs.foldl (fun acc pr =>
    pr.2.foldl (fun a kv => addKeyName a kv.1 pr.1) acc) []

/-- Specification-side description of `key_to_step_names[key]`: the names of
the input steps whose payload contains `key`, in input order. -/
def sourcesOf {V : Type} (step_inputs : List (String × Payload V))
    (k : String) : List String :=
  (step_inputs.filter (fun pr => pr.2.any (fun kv => kv.1 == k))).map
    (fun pr => pr.1)

/-- The flat merge `unpacked_steps.update(step_dict)` over all inputs (also
exactly `steps.base.Step.unpack`, whose merge `{**unpacked, **step_dict}` is
the same later-wins update). -/
def mergeInputs {V : Type} (step_inputs : List (String × Payload V)) :
    Payload V :=
  step_inputs.foldl (fun acc pr => dictUpdate acc pr.2) []

/-- `steppy.base.Step._unpack`: flat merge, but raise `StepsError` naming
every repeated key and its source steps when any key occurs in more than one
input step. -/
def steppy_unpack {V : Type} (step_inputs : List (String × Payload V)) :
    Except StepsErr (Payload V) :=
  let repeated := (keyToSteps step_inputs).filter (fun e => e.2.length > 1)
  if repeated.isEmpty then
    .ok (mergeInputs step_inputs)
  else
    .error (.collision repeated)

/-- `steps.base.Step.unpack` (legacy variant): the same flat merge with no
collision check at all — on a repeated key the later input step wins. -/
def steps_unpack {V : Type} (step_inputs : List (String × Payload V)) :
    Payload V :=
  mergeInputs step_inputs

end Steppy

namespace StepsLegacy

/-!
## Legacy adapter (`src/steps/base.py` `Step.adapt`)

An adapter entry is dispatched on by `isinstance(mapping, str)` and then by
`len(mapping)`.  The elements a mapping sequence can contain are modelled by
`MapElem`: a `(step_name, output_key)` 2-tuple, a list of such 2-tuples, or
an aggregation function.
-/

inductive AdaptErr where
  | keyError            -- Python KeyError: step name or variable missing
  | unpackFailure       -- ValueError/TypeError while unpacking iterated items
  | notCallable         -- TypeError: applying a non-function
  | wrongMapping        -- ValueError('wrong mapping specified')
  | indexError          -- IndexError: first item of an empty list
  deriving DecidableEq

/-- One element of an adapter mapping sequence. -/
inductive MapElem (V : Type) where
  | pair (step_name step_var : String)
  | pairList (ps : List (String × String))
  | func (f : List V → V)

/-- An adapter mapping value: either a plain string (whole-payload lookup) or
a sequence of elements, dispatched on by length. -/
inductive AdaptMapping (V : Type) where
  | strM (s : String)
  | seqM (items : List (MapElem V))

/-- What an adapter entry resolves to: a whole payload (string mapping) or a
single aggregated value. -/
inductive EntryOut (V : Type) where
  | payload (p : Payload V)
  | val (v : V)

/-- Iterating `step_mapping` and unpacking each item as
`step_name, step_var`: succeeds exactly on a list of 2-tuples.  Iterating a
2-tuple of strings yields the two strings themselves and unpacking a string
of length other than two raises; iterating a function raises `TypeError`
(modelled as `unpackFailure`; the names used in this development are never
exactly two characters long, where CPython would instead yield a pair of
characters). -/
def iterAsPairs {V : Type} : MapElem V → Except AdaptErr (List (String × String))
  | .pairList ps => .ok ps
  | .pair _ _ => .error .unpackFailure
  | .func _ => .error .unpackFailure

/-- The list comprehension
`[step_inputs[step_name][step_var] for step_name, step_var in step_mapping]`. -/
def extractPairs {V : Type} (step_inputs : List (String × Payload V)) :
    List (String × String) → Except AdaptErr (List V)
  | [] => .ok []
  | pr :: rest =>
      match step_inputs.lookup pr.1 with
      | none => .error .keyError
      | some pl =>
          match pl.lookup pr.2 with
          | none => .error .keyError
          | some v => (extractPairs step_inputs rest).map (fun vs => v :: vs)

/-- Modelled from the spec: `steps.adapters.take_first_inputs` is imported by
`src/steps/base.py` but `src/steps/adapters.py` is not part of the sources;
the spec states the default reduction "is take the first item of the list". -/
def take_first_inputs {V : Type} (inputs : List V) : Except AdaptErr V :=
  match inputs with
  | [] => .error .indexError
  | x :: _ => .ok x

/-- Applying the aggregation slot of a 2-element mapping: calling anything
that is not a function raises `TypeError`. -/
def applyFunc {V : Type} (e : MapElem V) (raw_inputs : List V) :
    Except AdaptErr V :=
  match e with
  | .func f => .ok (f raw_inputs)
  | _ => .error .notCallable

/-- Unpacking the single iterated item of a 1-element `step_mapping` into
`(step_name, step_var)`: a 2-tuple of strings unpacks; a list or a function
fails (Python ValueError/TypeError, or string-keyed lookups that cannot
match). -/
def iterSingleton {V : Type} : MapElem V → Except AdaptErr (List (String × String))
  | .pair a b => .ok [(a, b)]
  | _ => .error .unpackFailure

/-- One entry of `steps.base.Step.adapt`: a string mapping takes the whole
named payload; otherwise `len(mapping) == 2` destructures into
`(step_mapping, func)`, `len(mapping) == 1` uses the whole mapping as the
`step_mapping` with the default `take_first_inputs` aggregation, and any
other length raises `ValueError('wrong mapping specified')`. -/
def adaptEntry {V : Type} (step_inputs : List (String × Payload V)) :
    AdaptMapping V → Except AdaptErr (EntryOut V)
  | .strM s =>
      match step_inputs.lookup s with
      | none => .error .keyError
      | some pl => .ok (.payload pl)
  | .seqM [e₁, e₂] =>
      (iterAsPairs e₁).bind (fun ps =>
        (extractPairs step_inputs ps).bind (fun raw =>
          (applyFunc e₂ raw).map .val))
  | .seqM [e₁] =>
      -- step_mapping is the whole 1-element collection; iterating it yields
      -- its single element, which must unpack into (step_name, step_var)
      (iterSingleton e₁).bind
        (fun ps =>
          (extractPairs step_inputs ps).bind (fun raw =>
            (take_first_inputs raw).map .val))
  | .seqM _ => .error .wrongMapping

end StepsLegacy

namespace Steppy

/-!
## Step node engine (`src/steppy/base.py` `Step`)

A `Step` wraps one transformer plus wiring and caching flags.  The
experiment-directory stores (`tmp/`, `outputs/`, `transformers/`) are
modelled by a `Store` threaded through execution; `os.path.exists` on
`<dir>/<name>` is a lookup in the corresponding association list.  Execution
also returns a trace of events so that "the transformer was not invoked" is
expressible.  The `Adapter` object attached to a step is modelled by the
function its `adapt` method computes (recipe semantics are embedded
separately above); the parameter-sharing feature where the `transformer`
slot holds another `Step` is not modelled (no claim concerns it).
-/

/-- The data dictionary passed to `fit_transform` / `transform`. -/
abbrev Data (V : Type) := List (String × Payload V)

/-- The filesystem-backed stores under the experiment directory. -/
structure Store (V S : Type) where
  transformers : List (String × S)
  outputs : List (String × Payload V)
  tmp : List (String × Payload V)

/-- Observable execution events. -/
inductive Ev where
  | loadCached (name : String)     -- loaded exp_dir/tmp/name
  | loadSaved (name : String)      -- loaded exp_dir/outputs/name
  | transformed (name : String)    -- transformer.transform invoked
  | fitTransformed (name : String) -- transformer.fit_transform invoked
  deriving DecidableEq

/-- The function computed by an attached `Adapter` object's `adapt` method
(`none` models a raised `AdapterError`). -/
abbrev AdapterFn (V : Type) := List (String × Payload V) → Option (Payload V)

/-- A `Step`: name, transformer, external input-data keys, predecessor
steps, optional adapter, and the four caching/fitting flags
(`cache_output`, `save_output`, `load_saved_output`, `force_fitting`). -/
inductive SStep (V S : Type) where
  | mk (name : String) (transformer : BaseTransformer V S)
      (input_data : List String) (input_steps : List (SStep V S))
      (adapter : Option (AdapterFn V))
      (cache_output save_output load_saved_output force_fitting : Bool)

def SStep.name {V S : Type} : SStep V S → String
  | .mk n _ _ _ _ _ _ _ _ => n

def SStep.transformer {V S : Type} : SStep V S → BaseTransformer V S
  | .mk _ t _ _ _ _ _ _ _ => t

def SStep.input_data {V S : Type} : SStep V S → List String
  | .mk _ _ d _ _ _ _ _ _ => d

def SStep.input_steps {V S : Type} : SStep V S → List (SStep V S)
  | .mk _ _ _ st _ _ _ _ _ => st

def SStep.adapter {V S : Type} : SStep V S → Option (AdapterFn V)
  | .mk _ _ _ _ a _ _ _ _ => a

def SStep.cache_output {V S : Type} : SStep V S → Bool
  | .mk _ _ _ _ _ c _ _ _ => c

def SStep.save_output {V S : Type} : SStep V S → Bool
  | .mk _ _ _ _ _ _ s _ _ => s

def SStep.load_saved_output {V S : Type} : SStep V S → Bool
  | .mk _ _ _ _ _ _ _ l _ => l

def SStep.force_fitting {V S : Type} : SStep V S → Bool
  | .mk _ _ _ _ _ _ _ _ f => f

/-- The `cache_output` / `save_output` writes performed after a transformer
call. -/
def saveOutputsTo {V S : Type} (name : String) (cache_output save_output : Bool)
    (out : Payload V) (st : Store V S) : Store V S :=
  let st := if cache_output then { st with tmp := (name, out) :: st.tmp } else st
  if save_output then { st with outputs := (name, out) :: st.outputs } else st

/-- `Step._cached_fit_transform`: if a persisted transformer exists and
force-fitting is off, load it and call `transform`; otherwise call
`fit_transform` and persist the fitted transformer.  Then cache/save the
output as configured. -/
def cached_fit_transform {V S : Type} (name : String) (tr : BaseTransformer V S)
    (force_fitting cache_output save_output : Bool) (step_inputs : Payload V)
    (st : Store V S) : Payload V × Store V S × List Ev :=
  match st.transformers.lookup name, force_fitting with
  | some ts, false =>
      let out := tr.transformFn ts step_inputs
      (out, saveOutputsTo name cache_output save_output out st, [.transformed name])
  | _, _ =>
      let t' := tr.fit step_inputs
      let out := t'.transform step_inputs
      let st' := { st with transformers := (name, t'.state) :: st.transformers }
      (out, saveOutputsTo name cache_output save_output out st',
        [.fitTransformed name])

/-- `Step._cached_transform`: load-and-transform when a persisted
transformer exists; otherwise raise `ValueError('No transformer cached ...')`
— there is no implicit fit. -/
def cached_transform {V S : Type} (name : String) (tr : BaseTransformer V S)
    (cache_output save_output : Bool) (step_inputs : Payload V)
    (st : Store V S) : Except StepsErr (Payload V × Store V S × List Ev) :=
  match st.transformers.lookup name with
  | some ts =>
      let out := tr.transformFn ts step_inputs
      .ok (out, saveOutputsTo name cache_output save_output out st,
        [.transformed name])
  | none => .error (.notFitted name)

/-- Collect the declared external `input_data` parts from the caller's data
dictionary (`step_inputs[part] = data[part]`, raising `KeyError` if
missing). -/
def collect_input_data {V : Type} (input_data : List String) (data : Data V) :
    Except StepsErr (List (String × Payload V)) :=
  input_data.foldlM (fun acc part =>
    match data.lookup part with
    | none => .error (.keyError part)
    | some pl => .ok (dictSet acc part pl)) []

/-- The adapter-or-unpack stage: `self._adapt(step_inputs)` (wrapping an
`AdapterError` into a `StepsError` naming the step) when an adapter is
configured, else `self._unpack(step_inputs)`. -/
def resolve_inputs {V : Type} (name : String) (adapter : Option (AdapterFn V))
    (step_inputs : List (String × Payload V)) : Except StepsErr (Payload V) :=
  match adapter with
  | some f =>
      match f step_inputs with
      | some res => .ok res
      | none => .error (.adapterFailed name)
  | none => steppy_unpack step_inputs

mutual

/-- `Step.fit_transform(data)`: fast path on a cached output (unless
force-fitting), then on a saved output (if configured, unless force-fitting),
else gather inputs and run `_cached_fit_transform`. -/
def fit_transform {V S : Type} (s : SStep V S) (data : Data V)
    (st : Store V S) : Except StepsErr (Payload V × Store V S × List Ev) :=
  match st.tmp.lookup s.name with
  | some out =>
      if s.force_fitting then fit_transform_body s data st
      else .ok (out, st, [.loadCached s.name])
  | none =>
      match st.outputs.lookup s.name with
      | some out =>
          if s.load_saved_output && !s.force_fitting then
            .ok (out, st, [.loadSaved s.name])
          else fit_transform_body s data st
      | none => fit_transform_body s data st
termination_by 2 * sizeOf s + 1

/-- The else-branch of `fit_transform`: gather inputs (recursively
fit-transforming the input steps), then `_cached_fit_transform`. -/
def fit_transform_body {V S : Type} (s : SStep V S) (data : Data V)
    (st : Store V S) : Except StepsErr (Payload V × Store V S × List Ev) :=
  match s with
  | .mk name tr input_data input_steps adapter cache_out save_out _ force =>
      (gather name input_data input_steps adapter true data st).bind (fun g =>
        let r := cached_fit_transform name tr force cache_out save_out g.1 g.2.1
        .ok (r.1, r.2.1, g.2.2 ++ r.2.2))
termination_by 2 * sizeOf s

/-- `Step.transform(data)`: fast path on a cached output — with NO
`force_fitting` check, unlike `fit_transform` — then on a saved output (if
configured), else gather inputs and run `_cached_transform`. -/
def transform {V S : Type} (s : SStep V S) (data : Data V)
    (st : Store V S) : Except StepsErr (Payload V × Store V S × List Ev) :=
  match st.tmp.lookup s.name with
  | some out => .ok (out, st, [.loadCached s.name])
  | none =>
      match st.outputs.lookup s.name with
      | some out =>
          if s.load_saved_output then .ok (out, st, [.loadSaved s.name])
          else transform_body s data st
      | none => transform_body s data st
termination_by 2 * sizeOf s + 1

/-- The else-branch of `transform`: gather inputs (recursively transforming
the input steps), then `_cached_transform`. -/
def transform_body {V S : Type} (s : SStep V S) (data : Data V)
    (st : Store V S) : Except StepsErr (Payload V × Store V S × List Ev) :=
  match s with
  | .mk name tr input_data input_steps adapter cache_out save_out _ _ =>
      (gather name input_data input_steps adapter false data st).bind (fun g =>
        (cached_transform name tr cache_out save_out g.1 g.2.1).map (fun r =>
          (r.1, r.2.1, g.2.2 ++ r.2.2)))
termination_by 2 * sizeOf s

/-- The input-gathering prefix shared by both entry points: collect external
data parts, recursively execute the input steps (fit-transforming when
`fitting` is true), assemble `step_inputs` in that order, then adapt or
unpack. -/
def gather {V S : Type} (name : String) (input_data : List String)
    (input_steps : List (SStep V S)) (adapter : Option (AdapterFn V))
    (fitting : Bool) (data : Data V) (st : Store V S) :
    Except StepsErr (Payload V × Store V S × List Ev) :=
  (collect_input_data input_data data).bind (fun base =>
    (gather_steps input_steps fitting data st).bind (fun g =>
      let step_inputs := g.1.foldl (fun acc pr => dictSet acc pr.1 pr.2) base
      (resolve_inputs name adapter step_inputs).map (fun fin =>
        (fin, g.2.1, g.2.2))))
termination_by 2 * sizeOf input_steps + 4

/-- `for input_step in self.input_steps: step_inputs[input_step.name] =
input_step.fit_transform(data)` (or `.transform(data)`), threading the store
and collecting events. -/
def gather_steps {V S : Type} (input_steps : List (SStep V S)) (fitting : Bool)
    (data : Data V) (st : Store V S) :
    Except StepsErr (List (String × Payload V) × Store V S × List Ev) :=
  match input_steps with
  | [] => .ok ([], st, [])
  | s :: rest =>
      ((if fitting then fit_transform s data st else transform s data st)).bind
        (fun r =>
          (gather_steps rest fitting data r.2.1).bind (fun g =>
            .ok ((s.name, r.1) :: g.1, g.2.1, r.2.2 ++ g.2.2)))
termination_by 2 * sizeOf input_steps + 3
decreasing_by
  all_goals simp_wf
  all_goals omega

end

mutual

/-- `Step._get_steps`: recursively collect all upstream steps into a dict
keyed by name (`all_steps[self.name] = self`, a plain dict assignment with
no duplicate check). -/
def get_steps {V S : Type} (s : SStep V S)
    (all_steps : List (String × SStep V S)) : List (String × SStep V S) :=
  match s with
  | .mk name _ _ input_steps _ _ _ _ _ =>
      dictSet (get_steps_list input_steps all_steps) name s

/-- The loop over `self.input_steps` in `_get_steps`. -/
def get_steps_list {V S : Type} (input_steps : List (SStep V S))
    (all_steps : List (String × SStep V S)) : List (String × SStep V S) :=
  match input_steps with
  | [] => all_steps
  | s :: rest => get_steps_list rest (get_steps s all_steps)

end

/-- `Step.all_steps`. -/
def all_steps {V S : Type} (s : SStep V S) : List (String × SStep V S) :=
  get_steps s []

end Steppy

namespace Examples

/-!
## Concrete instances used in the theorems below
-/

/-- A transformer whose transform echoes its inputs. -/
def idTransformer : Steppy.BaseTransformer Nat Nat :=
  ⟨0, fun st _ => st, fun _ kwargs => kwargs⟩

/-- A transformer whose transform returns the empty payload. -/
def zeroTransformer : Steppy.BaseTransformer Nat Nat :=
  ⟨1, fun st _ => st, fun _ _ => []⟩

def stepXa : Steppy.SStep Nat Nat :=
  .mk ("x") idTransformer [] [] none false false false false

def stepXb : Steppy.SStep Nat Nat :=
  .mk ("x") zeroTransformer [] [] none false false false false

/-- A pipeline root whose two input steps carry the same name `x` but are
different steps. -/
def rootDup : Steppy.SStep Nat Nat :=
  .mk ("r") idTransformer [] [stepXa, stepXb] none false false false false

/-- A step with `force_fitting = True`. -/
def forcedStep : Steppy.SStep Nat Nat :=
  .mk ("s") zeroTransformer [] [] none false false false true

/-- The same step with `force_fitting = False`. -/
def plainStep : Steppy.SStep Nat Nat :=
  .mk ("s") zeroTransformer [] [] none false false false false

/-- A store holding a cached (tmp) output for step `s`. -/
def cachedStore : Steppy.Store Nat Nat :=
  ⟨[], [], [(("s"), [(("x"), 42)])]⟩

def emptyStore : Steppy.Store Nat Nat := ⟨[], [], []⟩

/-- A store holding a persisted transformer state for step `s`. -/
def fittedStore : Steppy.Store Nat Nat := ⟨[(("s"), 5)], [], []⟩

/-- A data loader used by the diamond pipeline nodes. -/
def constLoad : Payload Nat → Payload Nat := fun _ => [(("x"), 0)]

/-- The diamond graph A→B, A→C, B→D, C→D from the specification, with an
extra node E outside the ancestor closure of D. -/
def diamond : Millet.MultiPipeline Nat :=
  { nodes := [(("A"), some (.dataLoader constLoad)),
              (("B"), some (.dataLoader constLoad)),
              (("C"), some (.dataLoader constLoad)),
              (("D"), some (.dataLoader constLoad)),
              (("E"), some (.dataLoader constLoad))],
    outputs := [(("A"), [(("stale"), 7)])],
    edges := [((("A"), ("B")), Millet.EdgeData.empty),
              ((("A"), ("C")), Millet.EdgeData.empty),
              ((("B"), ("D")), Millet.EdgeData.empty),
              ((("C"), ("D")), Millet.EdgeData.empty)] }

/-- A one-node graph whose step has an unrecognized capability. -/
def otherGraph : Millet.MultiPipeline Nat :=
  ⟨[(("x"), some .other)], [], []⟩

/-- The final graph state after running the diamond pipeline for output
`D`: the stale output is gone, and `A`, `B`, `C`, `D` all carry the loaded
payload. -/
def diamondFinal : Millet.MultiPipeline Nat :=
  ⟨diamond.nodes,
   [(("D"), [(("x"), 0)]), (("C"), [(("x"), 0)]),
    (("B"), [(("x"), 0)]), (("A"), [(("x"), 0)])],
   diamond.edges⟩

end Examples

/-!
# Theorems
-/

/-! ## Association-list helper lemmas -/

theorem lookup_eq_none_of_forall {α : Type} {l : List (String × α)} {n : String}
    (h : ∀ kv ∈ l, kv.1 ≠ n) : l.lookup n = none := by
  induction l with
  | nil => rfl
  | cons kv rest ih =>
      have h1 : kv.1 ≠ n := h kv (List.mem_cons_self _ _)
      have hbeq : (n == kv.1) = false := beq_eq_false_iff_ne.mpr (Ne.symm h1)
      simp only [List.lookup, hbeq]
      exact ih (fun kv hm => h kv (List.mem_cons_of_mem _ hm))

theorem forall_of_lookup_eq_none {α : Type} {l : List (String × α)} {n : String}
    (h : l.lookup n = none) : ∀ kv ∈ l, kv.1 ≠ n := by
  induction l with
  | nil => intro kv hm; cases hm
  | cons kv rest ih =>
      simp only [List.lookup] at h
      cases hbeq : (n == kv.1) with
      | true => rw [hbeq] at h; cases h
      | false =>
          rw [hbeq] at h
          intro kv' hm
          rcases List.mem_cons.mp hm with h1 | h2
          · subst h1
            exact fun he => by simp [he] at hbeq
          · exact ih h kv' h2

theorem lookup_filter_ne_self {α : Type} (l : List (String × α)) (n : String) :
    (l.filter (fun kv => kv.1 ≠ n)).lookup n = none := by
  apply lookup_eq_none_of_forall
  intro kv hm
  have := (List.mem_filter.mp hm).2
  simpa using this

theorem lookup_none_of_filter {α : Type} (l : List (String × α))
    (p : String × α → Bool) (n : String) (h : l.lookup n = none) :
    (l.filter p).lookup n = none :=
  lookup_eq_none_of_forall (fun kv hm =>
    forall_of_lookup_eq_none h kv (List.mem_of_mem_filter hm))

/-! ## Lemmas about clearing outputs (`clear_all_outputs`) -/

theorem clear_step_preserves_none {V : Type} (g : Millet.MultiPipeline V)
    (m n : String) (h : Millet.lookupOutput g n = none) :
    Millet.lookupOutput (Millet.clear_step_output g m) n = none :=
  lookup_none_of_filter _ _ _ h

theorem clear_fold_preserves_none {V : Type}
    (L : List (String × Option (Millet.MStep V))) (g : Millet.MultiPipeline V)
    (n : String) (h : Millet.lookupOutput g n = none) :
    Millet.lookupOutput
      (L.foldl (fun acc nd => Millet.clear_step_output acc nd.1) g) n = none := by
  induction L generalizing g with
  | nil => exact h
  | cons nd rest ih => exact ih _ (clear_step_preserves_none _ _ _ h)

theorem clear_fold_lookup_none {V : Type}
    (L : List (String × Option (Millet.MStep V))) (g : Millet.MultiPipeline V)
    (n : String) (h : n ∈ L.map (fun nd => nd.1)) :
    Millet.lookupOutput
      (L.foldl (fun acc nd => Millet.clear_step_output acc nd.1) g) n = none := by
  induction L generalizing g with
  | nil => cases h
  | cons nd rest ih =>
      simp only [List.map_cons] at h
      simp only [List.foldl_cons]
      rcases List.mem_cons.mp h with h1 | h2
      · subst h1
        exact clear_fold_preserves_none rest _ _ (lookup_filter_ne_self _ _)
      · exact ih _ h2

/-- Clearing every node's output makes every node's cached output `None`. -/
theorem clear_all_outputs_lookup_none {V : Type} (g : Millet.MultiPipeline V)
    (n : String) (h : n ∈ Millet.nodeNames g) :
    Millet.lookupOutput (Millet.clear_all_outputs g) n = none :=
  clear_fold_lookup_none _ _ _ h

/-! ## Claim theorems (first group) -/

/-- C8: for every transformer (supervised, unsupervised, and the steppy base
transformer) and all inputs, `fit_transform` equals the composition of `fit`
on the inputs followed by `transform` on the same inputs, returning
`transform`'s result (together with the post-fit transformer state). -/
theorem C8_fit_transform_composition {V S : Type}
    (ts : Millet.SupervTransformer V S) (tu : Millet.UnsupervTransformer V S)
    (tb : Steppy.BaseTransformer V S) (input_dict superv_dict kwargs : Payload V) :
    ts.fit_transform input_dict superv_dict
        = ((ts.fit input_dict superv_dict).transform input_dict,
           ts.fit input_dict superv_dict)
  ∧ tu.fit_transform input_dict
        = ((tu.fit input_dict).transform input_dict, tu.fit input_dict)
  ∧ tb.fit_transform kwargs
        = ((tb.fit kwargs).transform kwargs, tb.fit kwargs) :=
  ⟨rfl, rfl, rfl⟩

/-- C10: calling `run` with both the requested outputs and the fit targets
empty raises the reduce-of-empty-sequence error before executing any node
(the completed-node trace is empty), with every node's cached output already
cleared; it does not return an empty result mapping. -/
theorem C10_run_empty_request {V : Type} (g : Millet.MultiPipeline V)
    (input_info : Payload V) :
    Millet.run g input_info [] []
        = (Millet.clear_all_outputs g, [], .error .reduceEmpty)
  ∧ ∀ n ∈ Millet.nodeNames g,
      Millet.lookupOutput (Millet.run g input_info [] []).1 n = none := by
  constructor
  · rfl
  · intro n hn
    exact clear_all_outputs_lookup_none g n hn

/-- Witness for C10 on the concrete diamond graph: the call errors with the
cleared graph state, and node `A`'s previously cached output is cleared. -/
theorem C10_witness :
    Millet.run Examples.diamond [] [] []
        = (Millet.clear_all_outputs Examples.diamond, [], .error .reduceEmpty)
  ∧ Millet.lookupOutput (Millet.run Examples.diamond [] [] []).1 ("A") = none :=
  ⟨(C10_run_empty_request Examples.diamond []).1,
   (C10_run_empty_request Examples.diamond []).2 ("A") (by decide)⟩

/-- C9: node registration is type-checked against the required capability
(`add_dataloader` requires a data loader, `add_superv` a supervised
transformer, `add_unsuperv` an unsupervised transformer, each raising
`MilletTypeException` otherwise and leaving the graph unchanged), and the
per-node dispatch of `run` raises a fatal `MilletTypeException` on a node of
unrecognized capability. -/
theorem C9_capability_type_checks {V : Type} (g : Millet.MultiPipeline V)
    (s : Millet.MStep V) (n : String)
    (input_mapping superv_mapping : List (String × String × String))
    (input_info : Payload V) (fit_node_names : List String) :
    (s.isDataLoader = false →
       Millet.add_dataloader g s n = (g, some .typeError))
  ∧ (s.isSuperv = false →
       Millet.add_superv g s n input_mapping superv_mapping
         = (g, some .typeError))
  ∧ (s.isUnsuperv = false →
       Millet.add_unsuperv g s n input_mapping = (g, some .typeError))
  ∧ (Millet.stepOf g n = some .other →
       Millet.execNode g input_info fit_node_names n = .error .typeError) := by
  refine ⟨fun h => ?_, fun h => ?_, fun h => ?_, fun h => ?_⟩
  · simp [Millet.add_dataloader, h]
  · simp [Millet.add_superv, h]
  · simp [Millet.add_unsuperv, h]
  · simp [Millet.execNode, h]

/-- Witness for C9 on a concrete graph: every registration with the wrong
capability errors, and executing the unrecognized-capability node `x`
errors. -/
theorem C9_witness :
    Millet.add_dataloader Examples.otherGraph .other ("y")
        = (Examples.otherGraph, some .typeError)
  ∧ Millet.add_superv Examples.otherGraph .other ("y") [] []
        = (Examples.otherGraph, some .typeError)
  ∧ Millet.add_unsuperv Examples.otherGraph .other ("y") []
        = (Examples.otherGraph, some .typeError)
  ∧ Millet.execNode Examples.otherGraph [] [] ("x") = .error .typeError :=
  ⟨(C9_capability_type_checks Examples.otherGraph .other ("y") [] [] [] []).1 rfl,
   (C9_capability_type_checks Examples.otherGraph .other ("y") [] [] [] []).2.1 rfl,
   (C9_capability_type_checks Examples.otherGraph .other ("y") [] [] [] []).2.2.1 rfl,
   (C9_capability_type_checks Examples.otherGraph .other ("x") [] [] [] []).2.2.2 rfl⟩

/-- C5 (amended): in the `MultiPipeline` graph container, registering a node
under an existing name raises `MilletNameException` and leaves the graph
unchanged, and registration under a fresh name appends the node; the steppy
`Step` constructor, by contrast, performs no duplicate-name check (see the
counterexample). -/
theorem C5_duplicate_name_registration {V : Type} (g : Millet.MultiPipeline V)
    (s : Millet.MStep V) (n : String) :
    (Millet.hasNodeB g n = true →
       Millet.check_add_step g s n = (g, some .nameError))
  ∧ (Millet.hasNodeB g n = false →
       Millet.check_add_step g s n
         = ({ g with nodes := g.nodes ++ [(n, some s)] }, none)) := by
  refine ⟨fun h => ?_, fun h => ?_⟩
  · simp [Millet.check_add_step, h]
  · simp [Millet.check_add_step, h]

/-- Counterexample to C5 as stated: in the steppy engine two distinct steps
with the same name `x` are registered into one pipeline without any
naming/configuration error — `all_steps` silently maps `x` to the later
step, conflating the two. -/
theorem C5_counterexample_steppy_duplicate_names :
    Steppy.all_steps Examples.rootDup
      = [(("x"), Examples.stepXb), (("r"), Examples.rootDup)] := rfl

/-- Witness for C5 on a concrete graph: duplicate registration errors and
leaves the graph unchanged; fresh registration appends the node. -/
theorem C5_witness :
    Millet.check_add_step Examples.otherGraph .other ("x")
        = (Examples.otherGraph, some .nameError)
  ∧ Millet.check_add_step Examples.otherGraph .other ("y")
        = ({ Examples.otherGraph with
              nodes := Examples.otherGraph.nodes ++ [(("y"), some .other)] },
           none) :=
  ⟨(C5_duplicate_name_registration Examples.otherGraph .other ("x")).1 (by decide),
   (C5_duplicate_name_registration Examples.otherGraph .other ("y")).2 (by decide)⟩

/-- C3 (amended): in both entry points a cached (tmp) output is loaded and
returned without gathering inputs or invoking the transformer when
force-fitting is off; `fit_transform` with force-fitting on bypasses the
cache and executes its body, but `transform` uses the cached output even
when force-fitting is requested (see the counterexample). -/
theorem C3_cached_output_fast_path {V S : Type} (s : Steppy.SStep V S)
    (data : Steppy.Data V) (st : Steppy.Store V S) (out : Payload V)
    (hc : st.tmp.lookup s.name = some out) :
    (s.force_fitting = false →
       Steppy.fit_transform s data st = .ok (out, st, [.loadCached s.name]))
  ∧ Steppy.transform s data st = .ok (out, st, [.loadCached s.name])
  ∧ (s.force_fitting = true →
       Steppy.fit_transform s data st = Steppy.fit_transform_body s data st) := by
  refine ⟨fun hf => ?_, ?_, fun hf => ?_⟩
  · rw [Steppy.fit_transform]
    simp [hc, hf]
  · rw [Steppy.transform]
    simp [hc]
  · rw [Steppy.fit_transform]
    simp [hc, hf]

/-- Counterexample to C3 as stated: a step with `force_fitting = True` and a
cached output still loads and returns the cached output in the `transform`
entry point (the trace shows only the cache load; the transformer, which
would return the empty payload, is not invoked). -/
theorem C3_counterexample_transform_ignores_force :
    Examples.forcedStep.force_fitting = true
  ∧ Steppy.transform Examples.forcedStep [] Examples.cachedStore
      = .ok ([(("x"), 42)], Examples.cachedStore, [.loadCached ("s")]) := by
  refine ⟨rfl, ?_⟩
  rw [Steppy.transform]
  rfl

/-- Witness for C3: the fast path applies to the concrete cached non-forced
step, and the forced step's `fit_transform` reduces to its executing body. -/
theorem C3_witness :
    Steppy.fit_transform Examples.plainStep [] Examples.cachedStore
        = .ok ([(("x"), 42)], Examples.cachedStore, [.loadCached ("s")])
  ∧ Steppy.fit_transform Examples.forcedStep [] Examples.cachedStore
        = Steppy.fit_transform_body Examples.forcedStep [] Examples.cachedStore :=
  ⟨(C3_cached_output_fast_path Examples.plainStep [] Examples.cachedStore _ rfl).1 rfl,
   (C3_cached_output_fast_path Examples.forcedStep [] Examples.cachedStore _ rfl).2.2 rfl⟩

/-- C6: resolving a 2-tuple `(source-name, field-key)` recipe of two strings
returns exactly the value stored under the field key in the named source's
payload, raising an Adapter error naming the source when it is absent from
the gathered inputs, and an Adapter error naming the source and key when the
key is absent from that source's payload. -/
theorem C6_adapter_single_recipe {V : Type} (all_inputs : Steppy.AllInputs V)
    (a k : String) :
    (all_inputs.lookup a = none →
       Steppy.construct all_inputs (.tupleV [.str a, .str k])
         = .error (.noSuchInput a))
  ∧ (∀ pl, all_inputs.lookup a = some pl → pl.lookup k = none →
       Steppy.construct all_inputs (.tupleV [.str a, .str k])
         = .error (.missingKey a k))
  ∧ (∀ pl v, all_inputs.lookup a = some pl → pl.lookup k = some v →
       Steppy.construct all_inputs (.tupleV [.str a, .str k]) = .ok v) := by
  have hc : Steppy.construct all_inputs (.tupleV [.str a, .str k])
      = Steppy.construct_element all_inputs a k := by
    rw [Steppy.construct]
  refine ⟨fun h => ?_, fun pl h1 h2 => ?_, fun pl v h1 h2 => ?_⟩ <;>
    simp [hc, Steppy.construct_element, *]

/-- Witness for C6: the specification's example recipe resolves to exactly
the stored value, and both error cases fire on concrete inputs. -/
theorem C6_witness :
    Steppy.construct [(("input_1"), [(("features"), Steppy.PyObj.other 7)])]
        (.tupleV [.str ("input_1"), .str ("features")]) = .ok (.other 7)
  ∧ Steppy.construct [(("input_1"), [(("features"), Steppy.PyObj.other 7)])]
        (.tupleV [.str ("input_2"), .str ("features")])
      = .error (.noSuchInput ("input_2"))
  ∧ Steppy.construct [(("input_1"), [(("features"), Steppy.PyObj.other 7)])]
        (.tupleV [.str ("input_1"), .str ("labels")])
      = .error (.missingKey ("input_1") ("labels")) :=
  ⟨(C6_adapter_single_recipe _ ("input_1") ("features")).2.2 _ _ rfl rfl,
   (C6_adapter_single_recipe _ ("input_2") ("features")).1 rfl,
   (C6_adapter_single_recipe _ ("input_1") ("labels")).2.1 _ rfl rfl⟩

/-- C7: a legacy-adapter entry pairing an ordered sequence of
`(source, key)` 2-tuples with a reduction function extracts each referenced
field in sequence order into a list and returns the function applied to that
list; with the function omitted, the default reduction `take_first_inputs`
(modelled from the spec, `src/steps/adapters.py` not being in the sources)
returns the first item of the extracted list. -/
theorem C7_list_recipe_with_reducer {V : Type}
    (step_inputs : List (String × Payload V)) (ps : List (String × String))
    (f : List V → V) (raw : List V) (n k : String) (v : V) :
    (StepsLegacy.extractPairs step_inputs ps = .ok raw →
       StepsLegacy.adaptEntry step_inputs (.seqM [.pairList ps, .func f])
         = .ok (.val (f raw)))
  ∧ (∀ pl, step_inputs.lookup n = some pl → pl.lookup k = some v →
       StepsLegacy.adaptEntry step_inputs (.seqM [.pair n k]) = .ok (.val v))
  ∧ (∀ (x : V) (xs : List V), StepsLegacy.take_first_inputs (x :: xs) = .ok x) := by
  refine ⟨fun h => ?_, fun pl h1 h2 => ?_, fun x xs => rfl⟩
  · simp [StepsLegacy.adaptEntry, StepsLegacy.iterAsPairs, h,
      StepsLegacy.applyFunc, Except.bind, Except.map]
  · simp [StepsLegacy.adaptEntry, StepsLegacy.iterSingleton,
      StepsLegacy.extractPairs, h1, h2, StepsLegacy.take_first_inputs,
      Except.bind, Except.map]

/-- Witness for C7: the specification's example
`('X': ([('a','v'),('b','v')], sum))` against `a ↦ (v ↦ 2), b ↦ (v ↦ 3)`
yields 5, and a singleton sequence with the function omitted yields its
first (only) extracted item. -/
theorem C7_witness :
    StepsLegacy.adaptEntry [(("a"), [(("v"), 2)]), (("b"), [(("v"), 3)])]
        (.seqM [.pairList [(("a"), ("v")), (("b"), ("v"))],
                .func (fun l => l.foldl (fun x y => x + y) 0)])
      = .ok (.val 5)
  ∧ StepsLegacy.adaptEntry [(("a"), [(("v"), 2)]), (("b"), [(("v"), 3)])]
        (.seqM [.pair ("a") ("v")]) = .ok (.val 2) :=
  ⟨(C7_list_recipe_with_reducer [(("a"), [(("v"), 2)]), (("b"), [(("v"), 3)])]
      [(("a"), ("v")), (("b"), ("v"))] (fun l => l.foldl (fun x y => x + y) 0)
      [2, 3] ("a") ("v") 2).1 rfl,
   (C7_list_recipe_with_reducer [(("a"), [(("v"), 2)]), (("b"), [(("v"), 3)])]
      [(("a"), ("v")), (("b"), ("v"))] (fun l => l.foldl (fun x y => x + y) 0)
      [2, 3] ("a") ("v") 2).2.1 _ rfl rfl⟩

/-- C4: when a step is executed through the non-fitting `transform` entry
point and its inputs are not served from a cached or saved output, the
absence of a persisted transformer raises the Not-Fitted error (a fatal
`ValueError`; no implicit fit happens), while a persisted transformer is
loaded and its transform operation is applied to the gathered inputs. -/
theorem C4_transform_requires_fitted {V S : Type} (s : Steppy.SStep V S)
    (data : Steppy.Data V) (st st1 : Steppy.Store V S) (inp : Payload V)
    (ev : List Steppy.Ev)
    (h1 : st.tmp.lookup s.name = none)
    (h2 : st.outputs.lookup s.name = none ∨ s.load_saved_output = false)
    (hg : Steppy.gather s.name s.input_data s.input_steps s.adapter false data st
            = .ok (inp, st1, ev)) :
    (st1.transformers.lookup s.name = none →
       Steppy.transform s data st = .error (.notFitted s.name))
  ∧ (∀ ts, st1.transformers.lookup s.name = some ts →
       Steppy.transform s data st
         = .ok (s.transformer.transformFn ts inp,
                Steppy.saveOutputsTo s.name s.cache_output s.save_output
                  (s.transformer.transformFn ts inp) st1,
                ev ++ [.transformed s.name])) := by
  obtain ⟨name, tr, indat, insteps, adapter, cacheO, saveO, loadS, force⟩ := s
  simp only [Steppy.SStep.name, Steppy.SStep.transformer, Steppy.SStep.input_data,
    Steppy.SStep.input_steps, Steppy.SStep.adapter, Steppy.SStep.cache_output,
    Steppy.SStep.save_output, Steppy.SStep.load_saved_output] at h1 h2 hg ⊢
  have hbody : Steppy.transform
        (.mk name tr indat insteps adapter cacheO saveO loadS force) data st
      = Steppy.transform_body
        (.mk name tr indat insteps adapter cacheO saveO loadS force) data st := by
    rw [Steppy.transform]
    simp only [Steppy.SStep.name, Steppy.SStep.load_saved_output, h1]
    rcases h2 with ho | hl
    · rw [ho]
    · cases houts : List.lookup name st.outputs with
      | none => rfl
      | some out => simp [hl]
  have hb2 : Steppy.transform_body
        (.mk name tr indat insteps adapter cacheO saveO loadS force) data st
      = (Steppy.cached_transform name tr cacheO saveO inp st1).map
          (fun r => (r.1, r.2.1, ev ++ r.2.2)) := by
    simp only [Steppy.transform_body]
    rw [hg]
    rfl
  refine ⟨fun hn => ?_, fun ts hts => ?_⟩
  · rw [hbody, hb2]
    simp [Steppy.cached_transform, hn, Except.map]
  · rw [hbody, hb2]
    simp [Steppy.cached_transform, hts, Except.map]

/-- Witness for C4: the concrete step with no persisted transformer raises
the Not-Fitted error; with a persisted transformer state it transforms the
gathered (empty) inputs. -/
theorem C4_witness :
    Steppy.transform Examples.plainStep [] Examples.emptyStore
        = .error (.notFitted ("s"))
  ∧ Steppy.transform Examples.plainStep [] Examples.fittedStore
        = .ok ([], Examples.fittedStore, [.transformed ("s")]) := by
  have hg1 : Steppy.gather ("s") [] [] none false []
      Examples.emptyStore = .ok ([], Examples.emptyStore, []) := by
    simp only [Steppy.gather, Steppy.gather_steps.eq_def]
    rfl
  have hg2 : Steppy.gather ("s") [] [] none false []
      Examples.fittedStore = .ok ([], Examples.fittedStore, []) := by
    simp only [Steppy.gather, Steppy.gather_steps.eq_def]
    rfl
  exact ⟨(C4_transform_requires_fitted Examples.plainStep [] Examples.emptyStore
            Examples.emptyStore [] [] rfl (Or.inl rfl) hg1).1 rfl,
         (C4_transform_requires_fitted Examples.plainStep [] Examples.fittedStore
            Examples.fittedStore [] [] rfl (Or.inl rfl) hg2).2 5 rfl⟩

/-! ## Lemmas about `dictSet`, `dictUpdate` and the unpack merge (for C2) -/

theorem lookup_none_of_any_false {α : Type} {l : List (String × α)} {k : String}
    (h : l.any (fun kv => kv.1 == k) = false) : l.lookup k = none := by
  apply lookup_eq_none_of_forall
  intro kv hm he
  have : l.any (fun kv => kv.1 == k) = true :=
    List.any_eq_true.mpr ⟨kv, hm, by simp [he]⟩
  rw [this] at h
  cases h

theorem lookup_map_set_self {α : Type} (l : List (String × α)) (k : String) (v : α) :
    (l.map (fun kv => if kv.1 == k then (k, v) else kv)).lookup k
      = if l.any (fun kv => kv.1 == k) then some v else none := by
  induction l with
  | nil => rfl
  | cons kv rest ih =>
      simp only [List.map_cons, List.any_cons]
      by_cases hk : kv.1 = k
      · have hk1 : (kv.1 == k) = true := beq_iff_eq.mpr hk
        rw [if_pos hk1]
        simp [List.lookup, hk1]
      · have hk1 : (kv.1 == k) = false := beq_eq_false_iff_ne.mpr hk
        have hk2 : (k == kv.1) = false := beq_eq_false_iff_ne.mpr (Ne.symm hk)
        rw [if_neg (by simp [hk1])]
        simp only [List.lookup, hk2, hk1, Bool.false_or, ih]

theorem lookup_map_set_ne {α : Type} (l : List (String × α)) (k k' : String)
    (v : α) (hne : k' ≠ k) :
    (l.map (fun kv => if kv.1 == k then (k, v) else kv)).lookup k'
      = l.lookup k' := by
  induction l with
  | nil => rfl
  | cons kv rest ih =>
      simp only [List.map_cons]
      by_cases hk : kv.1 = k
      · have hk1 : (kv.1 == k) = true := beq_iff_eq.mpr hk
        have hk2 : (k' == k) = false := beq_eq_false_iff_ne.mpr hne
        have hk3 : (k' == kv.1) = false := beq_eq_false_iff_ne.mpr (hk ▸ hne)
        rw [if_pos hk1]
        simp only [List.lookup, hk2, hk3, ih]
      · have hk1 : (kv.1 == k) = false := beq_eq_false_iff_ne.mpr hk
        rw [if_neg (by simp [hk1])]
        simp only [List.lookup, ih]

theorem lookup_append_single {α : Type} (l : List (String × α))
    (k k' : String) (v : α) :
    (l ++ [(k, v)]).lookup k'
      = match l.lookup k' with
        | some w => some w
        | none => if k' == k then some v else none := by
  induction l with
  | nil =>
      simp only [List.nil_append, List.lookup]
      cases hbeq : k' == k <;> simp [hbeq]
  | cons kv rest ih =>
      simp only [List.cons_append, List.lookup]
      cases hbeq : k' == kv.1 <;> simp only [List.append_eq, ih]

theorem lookup_dictSet_self {α : Type} (l : List (String × α)) (k : String)
    (v : α) : (dictSet l k v).lookup k = some v := by
  unfold dictSet
  by_cases hany : (l.any (fun kv => kv.1 == k)) = true
  · rw [if_pos hany, lookup_map_set_self, if_pos hany]
  · have hf : (l.any (fun kv => kv.1 == k)) = false := Bool.eq_false_iff.mpr hany
    rw [if_neg hany, lookup_append_single, lookup_none_of_any_false hf]
    simp

theorem lookup_dictSet_ne {α : Type} (l : List (String × α)) (k k' : String)
    (v : α) (hne : k' ≠ k) : (dictSet l k v).lookup k' = l.lookup k' := by
  unfold dictSet
  by_cases hany : (l.any (fun kv => kv.1 == k)) = true
  · rw [if_pos hany, lookup_map_set_ne _ _ _ _ hne]
  · rw [if_neg hany, lookup_append_single]
    have hb : (k' == k) = false := beq_eq_false_iff_ne.mpr hne
    cases h : l.lookup k' <;> simp [hb]

theorem lookup_dictUpdate_not_mem {α : Type} (q l : List (String × α))
    (k : String) (h : ∀ kv ∈ q, kv.1 ≠ k) :
    (dictUpdate l q).lookup k = l.lookup k := by
  induction q generalizing l with
  | nil => rfl
  | cons kv rest ih =>
      have h1 : kv.1 ≠ k := h kv (List.mem_cons_self _ _)
      have := ih (dictSet l kv.1 kv.2) (fun kv hm => h kv (List.mem_cons_of_mem _ hm))
      simpa [dictUpdate, lookup_dictSet_ne _ _ _ _ (Ne.symm h1)] using this

theorem lookup_dictUpdate_mem {α : Type} (q : List (String × α))
    (l : List (String × α)) (k : String) (v : α)
    (hq : (q.map (fun kv => kv.1)).Nodup) (h : (k, v) ∈ q) :
    (dictUpdate l q).lookup k = some v := by
  induction q generalizing l with
  | nil => cases h
  | cons kv rest ih =>
      simp only [List.map_cons, List.nodup_cons] at hq
      rcases List.mem_cons.mp h with h1 | h2
      · subst h1
        have hrest : ∀ kv' ∈ rest, kv'.1 ≠ k := by
          intro kv' hm he
          exact hq.1 (he ▸ List.mem_map_of_mem (fun kv => kv.1) hm)
        show (dictUpdate (dictSet l k v) rest).lookup k = some v
        rw [lookup_dictUpdate_not_mem _ _ _ hrest, lookup_dictSet_self]
      · exact ih (dictSet l kv.1 kv.2) hq.2 h2

/-! ## Lemmas about the unpack merge and collision table (for C2) -/

theorem lookup_mergeFold_not_mem {V : Type}
    (inputs : List (String × Payload V)) (acc : Payload V) (k : String)
    (h : ∀ pr ∈ inputs, ∀ kv ∈ pr.2, kv.1 ≠ k) :
    (inputs.foldl (fun acc pr => dictUpdate acc pr.2) acc).lookup k
      = acc.lookup k := by
  induction inputs generalizing acc with
  | nil => rfl
  | cons pr rest ih =>
      simp only [List.foldl_cons]
      rw [ih _ (fun pr hm => h pr (List.mem_cons_of_mem _ hm)),
        lookup_dictUpdate_not_mem _ _ _ (h pr (List.mem_cons_self _ _))]

theorem lookup_mergeFold_mem {V : Type}
    (inputs : List (String × Payload V)) (acc : Payload V) (s k : String)
    (p : Payload V) (v : V)
    (hdisj : (inputs.flatMap (fun pr => pr.2.map (fun kv => kv.1))).Nodup)
    (hmem : (s, p) ∈ inputs) (hkv : (k, v) ∈ p) :
    (inputs.foldl (fun acc pr => dictUpdate acc pr.2) acc).lookup k
      = some v := by
  induction inputs generalizing acc with
  | nil => cases hmem
  | cons pr rest ih =>
      rw [List.flatMap_cons] at hdisj
      have hp0 := hdisj.of_append_left
      have hrestn := hdisj.of_append_right
      have hdisj2 := List.disjoint_of_nodup_append hdisj
      simp only [List.foldl_cons]
      rcases List.mem_cons.mp hmem with h1 | h2
      · cases h1
        have hknot : ∀ pr' ∈ rest, ∀ kv ∈ pr'.2, kv.1 ≠ k := by
          intro pr' hm kv hkv' he
          have hkp : k ∈ p.map (fun kv => kv.1) :=
            List.mem_map_of_mem _ hkv
          have hkr : k ∈ rest.flatMap (fun pr => pr.2.map (fun kv => kv.1)) :=
            List.mem_flatMap.mpr ⟨pr', hm, he ▸ List.mem_map_of_mem _ hkv'⟩
          exact hdisj2 hkp hkr
        rw [lookup_mergeFold_not_mem _ _ _ hknot,
          lookup_dictUpdate_mem _ _ _ _ hp0 hkv]
      · exact ih (dictUpdate acc pr.2) hrestn h2

theorem lookup_map_append_self (acc : Steppy.RepeatedKeys) (k name : String) :
    (acc.map (fun e => if e.1 == k then (e.1, e.2 ++ [name]) else e)).lookup k
      = (acc.lookup k).map (fun ns => ns ++ [name]) := by
  induction acc with
  | nil => rfl
  | cons e rest ih =>
      simp only [List.map_cons]
      by_cases hk : e.1 = k
      · have hk1 : (e.1 == k) = true := beq_iff_eq.mpr hk
        have hk2 : (k == e.1) = true := beq_iff_eq.mpr hk.symm
        rw [if_pos hk1]
        simp only [List.lookup, hk2]
        rfl
      · have hk1 : (e.1 == k) = false := beq_eq_false_iff_ne.mpr hk
        have hk2 : (k == e.1) = false := beq_eq_false_iff_ne.mpr (Ne.symm hk)
        rw [if_neg (by simp [hk1])]
        simp only [List.lookup, hk2, ih]

theorem lookup_map_append_ne (acc : Steppy.RepeatedKeys) (k k' name : String)
    (hne : k' ≠ k) :
    (acc.map (fun e => if e.1 == k then (e.1, e.2 ++ [name]) else e)).lookup k'
      = acc.lookup k' := by
  induction acc with
  | nil => rfl
  | cons e rest ih =>
      simp only [List.map_cons]
      by_cases hk : e.1 = k
      · have hk1 : (e.1 == k) = true := beq_iff_eq.mpr hk
        have hk2 : (k' == e.1) = false := beq_eq_false_iff_ne.mpr (hk ▸ hne)
        rw [if_pos hk1]
        simp only [List.lookup, beq_eq_false_iff_ne.mpr hne, hk2, ih]
      · have hk1 : (e.1 == k) = false := beq_eq_false_iff_ne.mpr hk
        rw [if_neg (by simp [hk1])]
        simp only [List.lookup, ih]

theorem lookup_isSome_of_any {α : Type} {l : List (String × α)} {k : String}
    (h : l.any (fun kv => kv.1 == k) = true) : ∃ w, l.lookup k = some w := by
  induction l with
  | nil => cases h
  | cons kv rest ih =>
      by_cases hk : kv.1 = k
      · refine ⟨kv.2, ?_⟩
        have hk2 : (k == kv.1) = true := beq_iff_eq.mpr hk.symm
        simp only [List.lookup, hk2]
      · have hk1 : (kv.1 == k) = false := beq_eq_false_iff_ne.mpr hk
        have hk2 : (k == kv.1) = false := beq_eq_false_iff_ne.mpr (Ne.symm hk)
        have h' : rest.any (fun kv => kv.1 == k) = true := by
          simpa [List.any_cons, hk1] using h
        obtain ⟨w, hw⟩ := ih h'
        exact ⟨w, by simp only [List.lookup, hk2, hw]⟩

theorem lookup_addKeyName_self (acc : Steppy.RepeatedKeys) (k name : String) :
    (Steppy.addKeyName acc k name).lookup k
      = some (((acc.lookup k).getD []) ++ [name]) := by
  unfold Steppy.addKeyName
  by_cases hany : (acc.any (fun e => e.1 == k)) = true
  · rw [if_pos hany, lookup_map_append_self]
    obtain ⟨w, hw⟩ := lookup_isSome_of_any hany
    rw [hw]
    rfl
  · have hf : (acc.any (fun e => e.1 == k)) = false := Bool.eq_false_iff.mpr hany
    rw [if_neg hany, lookup_append_single, lookup_none_of_any_false hf]
    simp

theorem lookup_addKeyName_ne (acc : Steppy.RepeatedKeys) (k k' name : String)
    (hne : k' ≠ k) :
    (Steppy.addKeyName acc k name).lookup k' = acc.lookup k' := by
  unfold Steppy.addKeyName
  by_cases hany : (acc.any (fun e => e.1 == k)) = true
  · rw [if_pos hany, lookup_map_append_ne _ _ _ _ hne]
  · rw [if_neg hany, lookup_append_single]
    have hb : (k' == k) = false := beq_eq_false_iff_ne.mpr hne
    cases h : acc.lookup k' <;> simp [hb]

theorem lookup_payloadFold_not_mem {V : Type} (pl : Payload V)
    (acc : Steppy.RepeatedKeys) (name k : String)
    (h : ∀ kv ∈ pl, kv.1 ≠ k) :
    (pl.foldl (fun a kv => Steppy.addKeyName a kv.1 name) acc).lookup k
      = acc.lookup k := by
  induction pl generalizing acc with
  | nil => rfl
  | cons kv rest ih =>
      simp only [List.foldl_cons]
      rw [ih _ (fun kv hm => h kv (List.mem_cons_of_mem _ hm)),
        lookup_addKeyName_ne _ _ _ _ (Ne.symm (h kv (List.mem_cons_self _ _)))]

theorem lookup_payloadFold_mem {V : Type} (pl : Payload V)
    (acc : Steppy.RepeatedKeys) (name k : String)
    (hpl : (pl.map (fun kv => kv.1)).Nodup)
    (h : k ∈ pl.map (fun kv => kv.1)) :
    (pl.foldl (fun a kv => Steppy.addKeyName a kv.1 name) acc).lookup k
      = some (((acc.lookup k).getD []) ++ [name]) := by
  induction pl generalizing acc with
  | nil => cases h
  | cons kv rest ih =>
      simp only [List.map_cons, List.nodup_cons] at hpl
      simp only [List.map_cons] at h
      simp only [List.foldl_cons]
      rcases List.mem_cons.mp h with h1 | h2
      · subst h1
        have hns : ∀ kv' ∈ rest, kv'.1 ≠ kv.1 := by
          intro kv' hm he
          apply hpl.1
          rw [← he]
          exact List.mem_map_of_mem (fun kv => kv.1) hm
        rw [lookup_payloadFold_not_mem _ _ _ _ hns, lookup_addKeyName_self]
      · have hne : k ≠ kv.1 := fun he => hpl.1 (he ▸ h2)
        rw [ih _ hpl.2 h2, lookup_addKeyName_ne _ _ _ _ hne]

theorem lookup_ktsFold {V : Type} (inputs : List (String × Payload V))
    (acc : Steppy.RepeatedKeys) (k : String)
    (hpl : ∀ pr ∈ inputs, (pr.2.map (fun kv => kv.1)).Nodup) :
    (inputs.foldl (fun acc pr =>
        pr.2.foldl (fun a kv => Steppy.addKeyName a kv.1 pr.1) acc) acc).lookup k
      = match acc.lookup k with
        | some ns => some (ns ++ Steppy.sourcesOf inputs k)
        | none =>
            if Steppy.sourcesOf inputs k = [] then none
            else some (Steppy.sourcesOf inputs k) := by
  induction inputs generalizing acc with
  | nil =>
      simp only [List.foldl_nil, Steppy.sourcesOf, List.filter_nil, List.map_nil]
      cases h : acc.lookup k <;> simp
  | cons pr rest ih =>
      simp only [List.foldl_cons]
      have hpr := hpl pr (List.mem_cons_self _ _)
      have hrest := fun pr' hm => hpl pr' (List.mem_cons_of_mem _ hm)
      by_cases hk : (pr.2.any (fun kv => kv.1 == k)) = true
      · have hmem : k ∈ pr.2.map (fun kv => kv.1) := by
          obtain ⟨kv, hkv, hb⟩ := List.any_eq_true.mp hk
          exact (beq_iff_eq.mp hb) ▸ List.mem_map_of_mem (fun kv => kv.1) hkv
        have hsrc : Steppy.sourcesOf (pr :: rest) k
            = pr.1 :: Steppy.sourcesOf rest k := by
          simp [Steppy.sourcesOf, List.filter_cons, hk]
        rw [ih _ hrest, lookup_payloadFold_mem _ _ _ _ hpr hmem, hsrc]
        cases h : acc.lookup k <;> simp
      · have hf : (pr.2.any (fun kv => kv.1 == k)) = false := Bool.eq_false_iff.mpr hk
        have hnot : ∀ kv ∈ pr.2, kv.1 ≠ k := by
          intro kv hm he
          have : pr.2.any (fun kv => kv.1 == k) = true :=
            List.any_eq_true.mpr ⟨kv, hm, by simp [he]⟩
          rw [this] at hf
          cases hf
        have hsrc : Steppy.sourcesOf (pr :: rest) k = Steppy.sourcesOf rest k := by
          simp [Steppy.sourcesOf, List.filter_cons, hf]
        rw [ih _ hrest, lookup_payloadFold_not_mem _ _ _ _ hnot, hsrc]

theorem addKeyName_keys_nodup (acc : Steppy.RepeatedKeys) (k name : String)
    (hnd : (acc.map (fun e => e.1)).Nodup) :
    ((Steppy.addKeyName acc k name).map (fun e => e.1)).Nodup := by
  unfold Steppy.addKeyName
  by_cases hany : (acc.any (fun e => e.1 == k)) = true
  · rw [if_pos hany]
    have hkeys : (acc.map (fun e => if e.1 == k then (e.1, e.2 ++ [name]) else e)).map
        (fun e => e.1) = acc.map (fun e => e.1) := by
      rw [List.map_map]
      apply List.map_congr_left
      intro e _
      by_cases he : e.1 = k
      · have : (e.1 == k) = true := beq_iff_eq.mpr he
        simp [Function.comp, this]
      · have : (e.1 == k) = false := beq_eq_false_iff_ne.mpr he
        simp [Function.comp, this]
    rw [hkeys]
    exact hnd
  · rw [if_neg hany]
    have hknot : k ∉ acc.map (fun e => e.1) := by
      intro hm
      obtain ⟨e, he, heq⟩ := List.mem_map.mp hm
      exact hany (List.any_eq_true.mpr ⟨e, he, by simp [heq]⟩)
    simp only [List.map_append, List.map_cons, List.map_nil]
    rw [List.nodup_append]
    exact ⟨hnd, List.nodup_singleton _, by
      intro a ha hb
      rw [List.mem_singleton] at hb
      exact hknot (hb ▸ ha)⟩

theorem payloadFold_keys_nodup {V : Type} (pl : Payload V)
    (acc : Steppy.RepeatedKeys) (name : String)
    (hnd : (acc.map (fun e => e.1)).Nodup) :
    ((pl.foldl (fun a kv => Steppy.addKeyName a kv.1 name) acc).map
      (fun e => e.1)).Nodup := by
  induction pl generalizing acc with
  | nil => exact hnd
  | cons kv rest ih =>
      simp only [List.foldl_cons]
      exact ih _ (addKeyName_keys_nodup _ _ _ hnd)

theorem keyToSteps_keys_nodup {V : Type} (inputs : List (String × Payload V)) :
    ((Steppy.keyToSteps inputs).map (fun e => e.1)).Nodup := by
  unfold Steppy.keyToSteps
  have main : ∀ (inp : List (String × Payload V)) (acc : Steppy.RepeatedKeys),
      (acc.map (fun e => e.1)).Nodup →
      ((inp.foldl (fun acc pr =>
          pr.2.foldl (fun a kv => Steppy.addKeyName a kv.1 pr.1) acc) acc).map
        (fun e => e.1)).Nodup := by
    intro inp
    induction inp with
    | nil => intro acc h; exact h
    | cons pr rest ih =>
        intro acc h
        simp only [List.foldl_cons]
        exact ih _ (payloadFold_keys_nodup _ _ _ h)
  exact main inputs [] (by simp)

theorem mem_of_lookup_eq_some {α : Type} {l : List (String × α)} {k : String}
    {v : α} (h : l.lookup k = some v) : (k, v) ∈ l := by
  induction l with
  | nil => cases h
  | cons kv rest ih =>
      simp only [List.lookup] at h
      cases hbeq : (k == kv.1) with
      | true =>
          rw [hbeq] at h
          have hk : k = kv.1 := beq_iff_eq.mp hbeq
          have hv : v = kv.2 := (Option.some.inj h).symm
          exact hk ▸ hv ▸ List.mem_cons_self _ _
      | false =>
          rw [hbeq] at h
          exact List.mem_cons_of_mem _ (ih h)

theorem lookup_eq_some_of_mem_nodup {α : Type} {l : List (String × α)}
    {k : String} {v : α} (hnd : (l.map (fun e => e.1)).Nodup)
    (h : (k, v) ∈ l) : l.lookup k = some v := by
  induction l with
  | nil => cases h
  | cons kv rest ih =>
      simp only [List.map_cons, List.nodup_cons] at hnd
      rcases List.mem_cons.mp h with h1 | h2
      · rw [← h1]
        simp [List.lookup]
      · have hne : k ≠ kv.1 := by
          intro he
          exact hnd.1 (he ▸ List.mem_map_of_mem (fun e => e.1) h2)
        have hb : (k == kv.1) = false := beq_eq_false_iff_ne.mpr hne
        simp only [List.lookup, hb]
        exact ih hnd.2 h2

theorem one_lt_length_of_mem_ne {α : Type} {l : List α} {a b : α}
    (ha : a ∈ l) (hb : b ∈ l) (hab : a ≠ b) : 1 < l.length := by
  cases l with
  | nil => cases ha
  | cons x t =>
      cases t with
      | nil =>
          have hax := List.mem_singleton.mp ha
          have hbx := List.mem_singleton.mp hb
          exact absurd (hax.trans hbx.symm) hab
      | cons y r =>
          simp only [List.length_cons]
          omega

theorem mem_sourcesOf {V : Type} {step_inputs : List (String × Payload V)}
    {s k : String} {p : Payload V} (hmem : (s, p) ∈ step_inputs)
    (hk : k ∈ p.map (fun kv => kv.1)) :
    s ∈ Steppy.sourcesOf step_inputs k := by
  refine List.mem_map.mpr ⟨(s, p), List.mem_filter.mpr ⟨hmem, ?_⟩, rfl⟩
  obtain ⟨x, hx, he⟩ := List.mem_map.mp hk
  exact List.any_eq_true.mpr ⟨x, hx, by simp [he]⟩

theorem sourcesOf_eq_nil {V : Type} (step_inputs : List (String × Payload V))
    (k : String) (h : ∀ pr ∈ step_inputs, ∀ kv ∈ pr.2, kv.1 ≠ k) :
    Steppy.sourcesOf step_inputs k = [] := by
  unfold Steppy.sourcesOf
  have : step_inputs.filter (fun pr => pr.2.any (fun kv => kv.1 == k)) = [] := by
    rw [List.filter_eq_nil_iff]
    intro pr hm hp
    obtain ⟨kv, hkv, hb⟩ := List.any_eq_true.mp hp
    exact h pr hm kv hkv (beq_iff_eq.mp hb)
  rw [this, List.map_nil]

theorem sourcesOf_length_le_one {V : Type}
    (step_inputs : List (String × Payload V)) (k : String)
    (hdisj : (step_inputs.flatMap (fun pr => pr.2.map (fun kv => kv.1))).Nodup) :
    (Steppy.sourcesOf step_inputs k).length ≤ 1 := by
  induction step_inputs with
  | nil => simp [Steppy.sourcesOf]
  | cons pr rest ih =>
      rw [List.flatMap_cons] at hdisj
      have hdisj2 := List.disjoint_of_nodup_append hdisj
      have hrest := hdisj.of_append_right
      by_cases hk : (pr.2.any (fun kv => kv.1 == k)) = true
      · have hmem : k ∈ pr.2.map (fun kv => kv.1) := by
          obtain ⟨kv, hkv, hb⟩ := List.any_eq_true.mp hk
          exact (beq_iff_eq.mp hb) ▸ List.mem_map_of_mem (fun kv => kv.1) hkv
        have hnil : Steppy.sourcesOf rest k = [] := by
          apply sourcesOf_eq_nil
          intro pr' hm kv hkv he
          refine hdisj2 hmem (List.mem_flatMap.mpr ⟨pr', hm, ?_⟩)
          rw [← he]
          exact List.mem_map_of_mem (fun kv => kv.1) hkv
        have hcons : Steppy.sourcesOf (pr :: rest) k
            = pr.1 :: Steppy.sourcesOf rest k := by
          simp [Steppy.sourcesOf, List.filter_cons, hk]
        rw [hcons, hnil]
        simp
      · have hf : (pr.2.any (fun kv => kv.1 == k)) = false := Bool.eq_false_iff.mpr hk
        have : Steppy.sourcesOf (pr :: rest) k = Steppy.sourcesOf rest k := by
          simp [Steppy.sourcesOf, List.filter_cons, hf]
        rw [this]
        exact ih hrest

theorem keyToSteps_lookup {V : Type} (step_inputs : List (String × Payload V))
    (k : String) (hpl : ∀ pr ∈ step_inputs, (pr.2.map (fun kv => kv.1)).Nodup) :
    (Steppy.keyToSteps step_inputs).lookup k
      = if Steppy.sourcesOf step_inputs k = [] then none
        else some (Steppy.sourcesOf step_inputs k) := by
  have h := lookup_ktsFold step_inputs [] k hpl
  simpa [Steppy.keyToSteps] using h

/-- C2 (amended): in the steppy implementation the no-adapter merge fails
with a `StepsError` naming every repeated key together with its source step
names whenever a key occurs in two or more predecessor payloads, and returns
the union of all payloads when all keys are distinct; the legacy
`steps.base.Step.unpack` performs the same union for distinct keys but does
NOT detect collisions — it silently merges, the later predecessor winning
(see the counterexample). -/
theorem C2_default_merge_collision {V : Type}
    (step_inputs : List (String × Payload V))
    (hpl : ∀ pr ∈ step_inputs, (pr.2.map (fun kv => kv.1)).Nodup) :
    (∀ k s₁ p₁ s₂ p₂, (s₁, p₁) ∈ step_inputs → (s₂, p₂) ∈ step_inputs →
        s₁ ≠ s₂ → k ∈ p₁.map (fun kv => kv.1) → k ∈ p₂.map (fun kv => kv.1) →
        ∃ reps, Steppy.steppy_unpack step_inputs = .error (.collision reps)
          ∧ ∃ ns, (k, ns) ∈ reps ∧ s₁ ∈ ns ∧ s₂ ∈ ns)
  ∧ ((step_inputs.flatMap (fun pr => pr.2.map (fun kv => kv.1))).Nodup →
        ∃ m, Steppy.steppy_unpack step_inputs = .ok m
          ∧ Steppy.steps_unpack step_inputs = m
          ∧ ∀ s p, (s, p) ∈ step_inputs → ∀ kv ∈ p,
              m.lookup kv.1 = some kv.2) := by
  constructor
  · intro k s₁ p₁ s₂ p₂ h1 h2 hne hk1 hk2
    have hs₁ : s₁ ∈ Steppy.sourcesOf step_inputs k := mem_sourcesOf h1 hk1
    have hs₂ : s₂ ∈ Steppy.sourcesOf step_inputs k := mem_sourcesOf h2 hk2
    have hlen : 1 < (Steppy.sourcesOf step_inputs k).length :=
      one_lt_length_of_mem_ne hs₁ hs₂ hne
    have hsrc_ne : Steppy.sourcesOf step_inputs k ≠ [] := by
      intro h
      rw [h] at hlen
      simp at hlen
    have hlk : (Steppy.keyToSteps step_inputs).lookup k
        = some (Steppy.sourcesOf step_inputs k) := by
      rw [keyToSteps_lookup _ _ hpl, if_neg hsrc_ne]
    have hmemk : (k, Steppy.sourcesOf step_inputs k) ∈ Steppy.keyToSteps step_inputs :=
      mem_of_lookup_eq_some hlk
    have hrep : (k, Steppy.sourcesOf step_inputs k)
        ∈ (Steppy.keyToSteps step_inputs).filter (fun e => e.2.length > 1) :=
      List.mem_filter.mpr ⟨hmemk, by simpa using hlen⟩
    refine ⟨(Steppy.keyToSteps step_inputs).filter (fun e => e.2.length > 1), ?_,
      Steppy.sourcesOf step_inputs k, hrep, hs₁, hs₂⟩
    have hnem : ¬ (((Steppy.keyToSteps step_inputs).filter
        (fun e => e.2.length > 1)).isEmpty = true) := by
      intro h
      rw [List.isEmpty_iff] at h
      rw [h] at hrep
      cases hrep
    simp only [Steppy.steppy_unpack]
    rw [if_neg hnem]
  · intro hdisj
    refine ⟨Steppy.mergeInputs step_inputs, ?_, rfl, ?_⟩
    · have hrep : (Steppy.keyToSteps step_inputs).filter
          (fun e => e.2.length > 1) = [] := by
        rw [List.filter_eq_nil_iff]
        intro e he
        have hnd := keyToSteps_keys_nodup step_inputs
        have hlk : (Steppy.keyToSteps step_inputs).lookup e.1 = some e.2 :=
          lookup_eq_some_of_mem_nodup hnd he
        rw [keyToSteps_lookup _ _ hpl] at hlk
        by_cases hs : Steppy.sourcesOf step_inputs e.1 = []
        · rw [if_pos hs] at hlk
          cases hlk
        · rw [if_neg hs] at hlk
          have he2 : e.2 = Steppy.sourcesOf step_inputs e.1 :=
            (Option.some.inj hlk).symm
          have hle := sourcesOf_length_le_one step_inputs e.1 hdisj
          simp only [he2]
          simpa using Nat.not_lt.mpr hle
      simp [Steppy.steppy_unpack, hrep]
    · intro s p hm kv hkv
      exact lookup_mergeFold_mem step_inputs [] s kv.1 p kv.2 hdisj hm hkv

/-- Counterexample to C2 as stated: the legacy `steps.base.Step.unpack`
merges payloads with the colliding key `labels` without raising any
collision error — the later predecessor's value silently wins — while the
steppy `_unpack` on the same inputs raises the collision error naming the
key and both source steps. -/
theorem C2_counterexample_steps_unpack_silent_collision :
    Steppy.steps_unpack
        ([(("a"), [(("labels"), 1)]), (("b"), [(("labels"), 2)])]
          : List (String × Payload Nat))
      = [(("labels"), 2)]
  ∧ Steppy.steppy_unpack
        ([(("a"), [(("labels"), 1)]), (("b"), [(("labels"), 2)])]
          : List (String × Payload Nat))
      = .error (.collision [(("labels"), [("a"), ("b")])]) := by
  constructor
  · rfl
  · rfl

/-- Witness for C2: the collision branch and the distinct-keys branch both
instantiated on concrete inputs. -/
theorem C2_witness :
    (∃ reps, Steppy.steppy_unpack
        ([(("a"), [(("labels"), 1)]), (("b"), [(("labels"), 2)])]
          : List (String × Payload Nat)) = .error (.collision reps)
      ∧ ∃ ns, (("labels"), ns) ∈ reps ∧ ("a") ∈ ns ∧ ("b") ∈ ns)
  ∧ (∃ m, Steppy.steppy_unpack
        ([(("a"), [(("x"), 1)]), (("b"), [(("y"), 2)])]
          : List (String × Payload Nat)) = .ok m
      ∧ Steppy.steps_unpack
          ([(("a"), [(("x"), 1)]), (("b"), [(("y"), 2)])]
            : List (String × Payload Nat)) = m
      ∧ ∀ s p, (s, p) ∈ ([(("a"), [(("x"), 1)]), (("b"), [(("y"), 2)])]
            : List (String × Payload Nat)) → ∀ kv ∈ p,
          m.lookup kv.1 = some kv.2) :=
  ⟨(C2_default_merge_collision
      ([(("a"), [(("labels"), 1)]), (("b"), [(("labels"), 2)])]
        : List (String × Payload Nat)) (by decide)).1
    ("labels") ("a") [(("labels"), 1)] ("b") [(("labels"), 2)]
    (by decide) (by decide) (by decide) (by decide) (by decide),
   (C2_default_merge_collision
      ([(("a"), [(("x"), 1)]), (("b"), [(("y"), 2)])]
        : List (String × Payload Nat)) (by decide)).2 (by decide)⟩

/-! ## Reachability lemmas (for C1) -/

namespace Millet

theorem reachesB_sound {E : List (String × String)} :
    ∀ (f : Nat) (a b : String), reachesB E f a b = true → Reaches E a b := by
  intro f
  induction f with
  | zero =>
      intro a b h
      simp only [reachesB] at h
      exact (beq_iff_eq.mp h) ▸ Reaches.refl a
  | succ f ih =>
      intro a b h
      simp only [reachesB, Bool.or_eq_true] at h
      rcases h with h | h
      · exact (beq_iff_eq.mp h) ▸ Reaches.refl a
      · obtain ⟨e, he, hb⟩ := List.any_eq_true.mp h
        rw [Bool.and_eq_true] at hb
        have h1 : e.1 = a := beq_iff_eq.mp hb.1
        have h2 : Reaches E e.2 b := ih e.2 b hb.2
        exact Reaches.head (h1 ▸ (show (e.1, e.2) ∈ E from he)) h2

theorem reachesB_succ {E : List (String × String)} :
    ∀ (f : Nat) (a b : String), reachesB E f a b = true →
      reachesB E (f + 1) a b = true := by
  intro f
  induction f with
  | zero =>
      intro a b h
      simp only [reachesB] at h ⊢
      simp [h]
  | succ f ih =>
      intro a b h
      simp only [reachesB, Bool.or_eq_true] at h ⊢
      rcases h with h | h
      · exact Or.inl h
      · refine Or.inr ?_
        obtain ⟨e, he, hb⟩ := List.any_eq_true.mp h
        rw [Bool.and_eq_true] at hb
        exact List.any_eq_true.mpr ⟨e, he, by
          rw [Bool.and_eq_true]
          exact ⟨hb.1, ih e.2 b hb.2⟩⟩

theorem reachesB_mono {E : List (String × String)} {f g : Nat}
    (hfg : f ≤ g) (a b : String) (h : reachesB E f a b = true) :
    reachesB E g a b = true := by
  induction g with
  | zero =>
      have : f = 0 := Nat.le_zero.mp hfg
      exact this ▸ h
  | succ g ih =>
      rcases Nat.lt_or_ge f (g + 1) with hlt | hge
      · exact reachesB_succ g a b (ih (Nat.lt_succ_iff.mp hlt))
      · have : f = g + 1 := Nat.le_antisymm hfg hge
        exact this ▸ h

theorem reaches_iff_leadsTo {E : List (String × String)} {a b : String} :
    Reaches E a b ↔ ∃ l, leadsTo E a l b := by
  constructor
  · intro h
    induction h with
    | refl a => exact ⟨[], rfl⟩
    | head he _ ih =>
        obtain ⟨l, hl⟩ := ih
        exact ⟨_ :: l, he, hl⟩
  · rintro ⟨l, hl⟩
    induction l generalizing a with
    | nil => exact hl ▸ Reaches.refl a
    | cons c l ih => exact Reaches.head hl.1 (ih hl.2)

theorem leadsTo_suffix {E : List (String × String)} {b : String} :
    ∀ (u : List String) (a c : String) (w : List String),
      leadsTo E a (u ++ c :: w) b → leadsTo E c w b := by
  intro u
  induction u with
  | nil => exact fun a c w h => h.2
  | cons d u' ih => exact fun a c w h => ih d c w h.2

theorem leadsTo_graft {E : List (String × String)} {b₁ b : String} :
    ∀ (u : List String) (a c : String) (w₁ w₂ : List String),
      leadsTo E a (u ++ c :: w₁) b₁ → leadsTo E c w₂ b →
      leadsTo E a (u ++ c :: w₂) b := by
  intro u
  induction u with
  | nil => exact fun a c w₁ w₂ h1 h2 => ⟨h1.1, h2⟩
  | cons d u' ih => exact fun a c w₁ w₂ h1 h2 => ⟨h1.1, ih d c w₁ w₂ h1.2 h2⟩

theorem exists_dup_decomposition {α : Type} [DecidableEq α] :
    ∀ (l : List α), ¬l.Nodup → ∃ (x : α) (u v w : List α),
      l = u ++ x :: v ++ x :: w := by
  intro l
  induction l with
  | nil => intro h; exact absurd List.nodup_nil h
  | cons c t ih =>
      intro h
      by_cases hc : c ∈ t
      · obtain ⟨v, w, hvw⟩ := List.append_of_mem hc
        exact ⟨c, [], v, w, by simp [hvw]⟩
      · have hnt : ¬t.Nodup := by
          intro hnd
          exact h (List.nodup_cons.mpr ⟨hc, hnd⟩)
        obtain ⟨x, u, v, w, hx⟩ := ih hnt
        exact ⟨x, c :: u, v, w, by simp [hx]⟩

theorem leadsTo_shorten {E : List (String × String)} {b : String} :
    ∀ (n : Nat) (l : List String) (a : String), l.length ≤ n →
      leadsTo E a l b →
      ∃ l', leadsTo E a l' b ∧ (a :: l').Nodup ∧ l'.length ≤ l.length := by
  intro n
  induction n with
  | zero =>
      intro l a hlen hl
      have : l = [] := List.length_eq_zero.mp (Nat.le_zero.mp hlen)
      subst this
      exact ⟨[], hl, List.nodup_singleton a, Nat.le_refl 0⟩
  | succ n ih =>
      intro l a hlen hl
      by_cases hnd : (a :: l).Nodup
      · exact ⟨l, hl, hnd, Nat.le_refl _⟩
      · by_cases ha : a ∈ l
        · obtain ⟨u, w, huw⟩ := List.append_of_mem ha
          subst huw
          have hw : leadsTo E a w b := leadsTo_suffix u a a w hl
          have hwlen : w.length ≤ n := by
            have := hlen
            simp only [List.length_append, List.length_cons] at this
            omega
          obtain ⟨l', h1, h2, h3⟩ := ih w a hwlen hw
          refine ⟨l', h1, h2, ?_⟩
          simp only [List.length_append, List.length_cons]
          omega
        · have hnt : ¬l.Nodup := by
            intro hnd'
            exact hnd (List.nodup_cons.mpr ⟨ha, hnd'⟩)
          obtain ⟨x, u, v, w, hx⟩ := exists_dup_decomposition l hnt
          subst hx
          have hxw : leadsTo E x w b := by
            have hl2 := hl
            have he : u ++ x :: v ++ x :: w = (u ++ x :: v) ++ x :: w := by
              simp
            rw [he] at hl2
            exact leadsTo_suffix (u ++ x :: v) a x w hl2
          have hl3 : leadsTo E a (u ++ x :: (v ++ x :: w)) b := by
            have he2 : u ++ x :: (v ++ x :: w) = u ++ x :: v ++ x :: w := by
              simp
            rw [he2]
            exact hl
          have hshort : leadsTo E a (u ++ x :: w) b :=
            leadsTo_graft u a x (v ++ x :: w) w hl3 hxw
          have hlen' : (u ++ x :: w).length ≤ n := by
            have := hlen
            simp only [List.length_append, List.length_cons] at this ⊢
            omega
          obtain ⟨l', h1, h2, h3⟩ := ih (u ++ x :: w) a hlen' hshort
          refine ⟨l', h1, h2, ?_⟩
          simp only [List.length_append, List.length_cons] at h3 ⊢
          omega

theorem leadsTo_sources {E : List (String × String)} {b : String} :
    ∀ (l : List String) (a : String), leadsTo E a l b →
      (a :: l).dropLast ⊆ E.map (fun e => e.1) := by
  intro l
  induction l with
  | nil =>
      intro a _ x hx
      simp at hx
  | cons c l ih =>
      intro a h x hx
      rw [List.dropLast_cons₂] at hx
      rcases List.mem_cons.mp hx with h1 | h2
      · subst h1
        exact List.mem_map.mpr ⟨(x, c), h.1, rfl⟩
      · exact ih c h.2 h2

theorem leadsTo_length_le {E : List (String × String)} {b : String}
    {l : List String} {a : String} (hnd : (a :: l).Nodup)
    (h : leadsTo E a l b) : l.length ≤ E.length := by
  have hsub := leadsTo_sources l a h
  have hnd' : (a :: l).dropLast.Nodup := hnd.sublist (List.dropLast_sublist _)
  have hsp := List.subperm_of_subset hnd' hsub
  have hle := hsp.length_le
  simp only [List.length_dropLast, List.length_cons, List.length_map] at hle
  omega

theorem leadsTo_reachesB {E : List (String × String)} {b : String} :
    ∀ (l : List String) (a : String), leadsTo E a l b →
      reachesB E l.length a b = true := by
  intro l
  induction l with
  | nil =>
      intro a h
      simpa [reachesB] using h
  | cons c l ih =>
      intro a h
      simp only [List.length_cons, reachesB, Bool.or_eq_true]
      refine Or.inr (List.any_eq_true.mpr ⟨(a, c), h.1, ?_⟩)
      rw [Bool.and_eq_true]
      exact ⟨beq_self_eq_true a, ih c h.2⟩

theorem reachesB_complete {E : List (String × String)} {a b : String}
    (h : Reaches E a b) : reachesB E E.length a b = true := by
  obtain ⟨l, hl⟩ := reaches_iff_leadsTo.mp h
  obtain ⟨l', h1, h2, _⟩ := leadsTo_shorten l.length l a (Nat.le_refl _) hl
  exact reachesB_mono (leadsTo_length_le h2 h1) a b (leadsTo_reachesB l' a h1)

/-! ### Lexicographic topological sort lemmas -/

theorem minName?_spec :
    ∀ (l : List String) (m : String), minName? l = some m →
      m ∈ l ∧ ∀ x ∈ l, m ≤ x := by
  intro l
  induction l with
  | nil => intro m h; cases h
  | cons x xs ih =>
      intro m h
      simp only [minName?] at h
      cases hxs : minName? xs with
      | none =>
          rw [hxs] at h
          have hnil : xs = [] := by
            cases xs with
            | nil => rfl
            | cons y ys =>
                exfalso
                simp only [minName?] at hxs
                cases h' : minName? ys <;> rw [h'] at hxs <;> cases hxs
          have hm : m = x := (Option.some.inj h).symm
          subst hm
          subst hnil
          exact ⟨List.mem_singleton.mpr rfl, fun y hy =>
            (List.mem_singleton.mp hy) ▸ le_refl m⟩
      | some m' =>
          rw [hxs] at h
          have hspec := ih m' hxs
          have hm : m = if m'.data < x.data then m' else x :=
            (Option.some.inj h).symm
          by_cases hlt : m'.data < x.data
          · rw [if_pos hlt] at hm
            subst hm
            refine ⟨List.mem_cons_of_mem _ hspec.1, fun y hy => ?_⟩
            rcases List.mem_cons.mp hy with h1 | h2
            · exact h1 ▸ le_of_lt (String.lt_iff_toList_lt.mpr hlt)
            · exact hspec.2 y h2
          · rw [if_neg hlt] at hm
            subst hm
            refine ⟨List.mem_cons_self _ _, fun y hy => ?_⟩
            rcases List.mem_cons.mp hy with h1 | h2
            · exact h1 ▸ le_refl m
            · refine le_trans (le_of_not_lt ?_) (hspec.2 y h2)
              intro hc
              exact hlt (String.lt_iff_toList_lt.mp hc)

theorem kahn_mem {E : List (String × String)} :
    ∀ (f : Nat) (rem L : List String), rem.Nodup → kahn E f rem = some L →
      ∀ x, x ∈ L ↔ x ∈ rem := by
  intro f
  induction f with
  | zero =>
      intro rem L hnd h x
      simp only [kahn] at h
      by_cases he : rem.isEmpty = true
      · rw [if_pos he] at h
        have h1 : L = [] := (Option.some.inj h).symm
        have h2 : rem = [] := List.isEmpty_iff.mp he
        subst h1
        subst h2
        simp
      · rw [if_neg he] at h
        cases h
  | succ f ih =>
      intro rem L hnd h x
      simp only [kahn] at h
      by_cases he : rem.isEmpty = true
      · rw [if_pos he] at h
        have h1 : L = [] := (Option.some.inj h).symm
        have h2 : rem = [] := List.isEmpty_iff.mp he
        subst h1
        subst h2
        simp
      · rw [if_neg he] at h
        cases hmin : minName? (rem.filter (noPredIn E rem)) with
        | none => simp only [hmin] at h; cases h
        | some m =>
            simp only [hmin] at h
            cases hk : kahn E f (rem.erase m) with
            | none => simp only [hk, Option.map_none'] at h; cases h
            | some L' =>
                simp only [hk, Option.map_some'] at h
                have hL : L = m :: L' := (Option.some.inj h).symm
                have hm_mem : m ∈ rem :=
                  (List.mem_filter.mp (minName?_spec _ m hmin).1).1
                have ih' := ih (rem.erase m) L' (hnd.erase m) hk
                subst hL
                constructor
                · intro hx
                  rcases List.mem_cons.mp hx with h1 | h2
                  · exact h1 ▸ hm_mem
                  · exact ((hnd.mem_erase_iff).mp ((ih' x).mp h2)).2
                · intro hx
                  by_cases hxm : x = m
                  · exact hxm ▸ List.mem_cons_self _ _
                  · exact List.mem_cons_of_mem _
                      ((ih' x).mpr ((hnd.mem_erase_iff).mpr ⟨hxm, hx⟩))

theorem kahn_nodup {E : List (String × String)} :
    ∀ (f : Nat) (rem L : List String), rem.Nodup → kahn E f rem = some L →
      L.Nodup := by
  intro f
  induction f with
  | zero =>
      intro rem L hnd h
      simp only [kahn] at h
      by_cases he : rem.isEmpty = true
      · rw [if_pos he] at h
        exact (Option.some.inj h) ▸ List.nodup_nil
      · rw [if_neg he] at h
        cases h
  | succ f ih =>
      intro rem L hnd h
      simp only [kahn] at h
      by_cases he : rem.isEmpty = true
      · rw [if_pos he] at h
        exact (Option.some.inj h) ▸ List.nodup_nil
      · rw [if_neg he] at h
        cases hmin : minName? (rem.filter (noPredIn E rem)) with
        | none => simp only [hmin] at h; cases h
        | some m =>
            simp only [hmin] at h
            cases hk : kahn E f (rem.erase m) with
            | none => simp only [hk, Option.map_none'] at h; cases h
            | some L' =>
                simp only [hk, Option.map_some'] at h
                have hL : L = m :: L' := (Option.some.inj h).symm
                subst hL
                refine List.nodup_cons.mpr ⟨?_, ih _ _ (hnd.erase m) hk⟩
                intro hm
                have := (kahn_mem f (rem.erase m) L' (hnd.erase m) hk m).mp hm
                exact ((hnd.mem_erase_iff).mp this).1 rfl

theorem kahn_order {E : List (String × String)} :
    ∀ (f : Nat) (rem L : List String), rem.Nodup → kahn E f rem = some L →
      ∀ u v, (u, v) ∈ E → u ∈ rem → v ∈ rem → [u, v].Sublist L := by
  intro f
  induction f with
  | zero =>
      intro rem L hnd h u v huv hu hv
      simp only [kahn] at h
      by_cases he : rem.isEmpty = true
      · rw [List.isEmpty_iff.mp he] at hu
        cases hu
      · rw [if_neg he] at h
        cases h
  | succ f ih =>
      intro rem L hnd h u v huv hu hv
      simp only [kahn] at h
      by_cases he : rem.isEmpty = true
      · rw [List.isEmpty_iff.mp he] at hu
        cases hu
      · rw [if_neg he] at h
        cases hmin : minName? (rem.filter (noPredIn E rem)) with
        | none => simp only [hmin] at h; cases h
        | some m =>
            simp only [hmin] at h
            cases hk : kahn E f (rem.erase m) with
            | none => simp only [hk, Option.map_none'] at h; cases h
            | some L' =>
                simp only [hk, Option.map_some'] at h
                have hL : L = m :: L' := (Option.some.inj h).symm
                subst hL
                have hready := (List.mem_filter.mp (minName?_spec _ m hmin).1).2
                by_cases hvm : v = m
                · exfalso
                  subst hvm
                  have hall := List.all_eq_true.mp hready (u, v) huv
                  simp only [bne_self_eq_false, Bool.false_or,
                    Bool.not_eq_true'] at hall
                  have hnot : u ∉ rem := by simpa using hall
                  exact hnot hu
                · have hv' : v ∈ rem.erase m :=
                    (hnd.mem_erase_iff).mpr ⟨hvm, hv⟩
                  by_cases hum : u = m
                  · subst hum
                    refine List.Sublist.cons₂ u ?_
                    exact List.singleton_sublist.mpr
                      ((kahn_mem f _ _ (hnd.erase u) hk v).mpr hv')
                  · have hu' : u ∈ rem.erase m :=
                      (hnd.mem_erase_iff).mpr ⟨hum, hu⟩
                    exact (ih _ _ (hnd.erase m) hk u v huv hu' hv').cons m

theorem kahn_tiebreak {E : List (String × String)} :
    ∀ (f : Nat) (rem L : List String), rem.Nodup → kahn E f rem = some L →
      ∀ l₁ m l₂, L = l₁ ++ m :: l₂ → ∀ n ∈ l₂,
        (∀ u, (u, n) ∈ E → u ∈ rem → u ∈ l₁) → m ≤ n := by
  intro f
  induction f with
  | zero =>
      intro rem L hnd h l₁ m l₂ hL n hn hpred
      simp only [kahn] at h
      by_cases he : rem.isEmpty = true
      · rw [if_pos he] at h
        have h1 : L = [] := (Option.some.inj h).symm
        rw [h1] at hL
        cases l₁ <;> simp at hL
      · rw [if_neg he] at h
        cases h
  | succ f ih =>
      intro rem L hnd h l₁ m l₂ hL n hn hpred
      simp only [kahn] at h
      by_cases he : rem.isEmpty = true
      · rw [if_pos he] at h
        have h1 : L = [] := (Option.some.inj h).symm
        rw [h1] at hL
        cases l₁ <;> simp at hL
      · rw [if_neg he] at h
        cases hmin : minName? (rem.filter (noPredIn E rem)) with
        | none => simp only [hmin] at h; cases h
        | some m₀ =>
            simp only [hmin] at h
            cases hk : kahn E f (rem.erase m₀) with
            | none => simp only [hk, Option.map_none'] at h; cases h
            | some L' =>
                simp only [hk, Option.map_some'] at h
                have hL0 : L = m₀ :: L' := (Option.some.inj h).symm
                subst hL0
                cases l₁ with
                | nil =>
                    simp only [List.nil_append] at hL
                    have hm : m₀ = m := (List.cons.injEq _ _ _ _ ▸ hL).1
                    have hl2 : L' = l₂ := (List.cons.injEq _ _ _ _ ▸ hL).2
                    subst hm
                    subst hl2
                    have hn_rem : n ∈ rem :=
                      ((hnd.mem_erase_iff).mp
                        ((kahn_mem f _ _ (hnd.erase m₀) hk n).mp hn)).2
                    have hnopred : ∀ u, (u, n) ∈ E → u ∉ rem := by
                      intro u huv hu
                      exact absurd (hpred u huv hu) (List.not_mem_nil u)
                    have hready : noPredIn E rem n = true := by
                      apply List.all_eq_true.mpr
                      intro e he'
                      by_cases hen : e.2 = n
                      · have h1 : e.1 ∉ rem := by
                          apply hnopred
                          have h2 : (e.1, e.2) ∈ E := he'
                          rw [hen] at h2
                          exact h2
                        have h3 : rem.contains e.1 = false := by
                          simpa using h1
                        simp only [Bool.or_eq_true, bne_iff_ne, ne_eq,
                          Bool.not_eq_true']
                        exact Or.inr h3
                      · simp [bne_iff_ne, hen]
                    have hn_ready : n ∈ rem.filter (noPredIn E rem) :=
                      List.mem_filter.mpr ⟨hn_rem, hready⟩
                    exact (minName?_spec _ m₀ hmin).2 n hn_ready
                | cons a l₁' =>
                    simp only [List.cons_append] at hL
                    have ha : m₀ = a := (List.cons.injEq _ _ _ _ ▸ hL).1
                    have hL' : L' = l₁' ++ m :: l₂ :=
                      (List.cons.injEq _ _ _ _ ▸ hL).2
                    refine ih _ _ (hnd.erase m₀) hk l₁' m l₂ hL' n hn ?_
                    intro u huv hu
                    have hu_rem : u ∈ rem := ((hnd.mem_erase_iff).mp hu).2
                    have hune : u ≠ m₀ := ((hnd.mem_erase_iff).mp hu).1
                    rcases List.mem_cons.mp (hpred u huv hu_rem) with h1 | h2
                    · exact absurd (ha ▸ h1) hune
                    · exact h2

/-! ### Ancestor-closure and union lemmas -/

theorem mem_listUnion {a b : List String} {x : String} :
    x ∈ listUnion a b ↔ x ∈ a ∨ x ∈ b := by
  unfold listUnion
  rw [List.mem_append, List.mem_filter]
  by_cases hx : x ∈ a
  · simp [hx]
  · simp [hx]

theorem mem_foldl_listUnion :
    ∀ (sets : List (List String)) (acc : List String) (x : String),
      x ∈ sets.foldl listUnion acc ↔ x ∈ acc ∨ ∃ s ∈ sets, x ∈ s := by
  intro sets
  induction sets with
  | nil => simp
  | cons s rest ih =>
      intro acc x
      simp only [List.foldl_cons]
      rw [ih, mem_listUnion, List.exists_mem_cons_iff]
      tauto

theorem reduce1_listUnion_mem {sets : List (List String)} {u : List String}
    (h : reduce1 listUnion sets = .ok u) (x : String) :
    x ∈ u ↔ ∃ s ∈ sets, x ∈ s := by
  cases sets with
  | nil => cases h
  | cons s rest =>
      simp only [reduce1] at h
      have hu : u = rest.foldl listUnion s := (Except.ok.inj h).symm
      subst hu
      rw [mem_foldl_listUnion, List.exists_mem_cons_iff]

theorem hasNodeB_iff {V : Type} {g : MultiPipeline V} {n : String} :
    hasNodeB g n = true ↔ n ∈ nodeNames g := by
  unfold hasNodeB nodeNames
  rw [List.any_eq_true]
  constructor
  · rintro ⟨nd, hnd, hb⟩
    exact (beq_iff_eq.mp hb) ▸ List.mem_map_of_mem (fun nd => nd.1) hnd
  · intro h
    obtain ⟨nd, hnd, he⟩ := List.mem_map.mp h
    exact ⟨nd, hnd, beq_iff_eq.mpr he⟩

theorem mem_ancestorsOf {V : Type} {g : MultiPipeline V} {x t : String} :
    x ∈ ancestorsOf g t ↔ x ∈ nodeNames g ∧ x ≠ t ∧
      reachesB (edgePairs g) (edgePairs g).length x t = true := by
  unfold ancestorsOf
  rw [List.mem_filter]
  constructor
  · rintro ⟨h1, h2⟩
    rw [Bool.and_eq_true] at h2
    exact ⟨h1, by simpa using h2.1, h2.2⟩
  · rintro ⟨h1, h2, h3⟩
    refine ⟨h1, ?_⟩
    rw [Bool.and_eq_true]
    exact ⟨by simpa using h2, h3⟩

theorem ancestorsList_ok {V : Type} {g : MultiPipeline V} :
    ∀ (up : List String) (sets : List (List String)),
      ancestorsList g up = .ok sets →
      (∀ t ∈ up, hasNodeB g t = true) ∧
      (∀ x, (∃ s ∈ sets, x ∈ s) ↔ ∃ t ∈ up, x ∈ ancestorsOf g t) := by
  intro up
  induction up with
  | nil =>
      intro sets h
      simp only [ancestorsList] at h
      have hs : sets = [] := (Except.ok.inj h).symm
      subst hs
      exact ⟨fun t ht => absurd ht (List.not_mem_nil t), by simp⟩
  | cons n rest ih =>
      intro sets h
      simp only [ancestorsList] at h
      by_cases hn : hasNodeB g n = true
      · rw [if_pos hn] at h
        cases hrest : ancestorsList g rest with
        | error e => rw [hrest] at h; cases h
        | ok sets' =>
            rw [hrest] at h
            simp only [Except.map] at h
            have hs : sets = ancestorsOf g n :: sets' := (Except.ok.inj h).symm
            subst hs
            obtain ⟨ih1, ih2⟩ := ih sets' hrest
            constructor
            · intro t ht
              rcases List.mem_cons.mp ht with h1 | h2
              · exact h1 ▸ hn
              · exact ih1 t h2
            · intro x
              rw [List.exists_mem_cons_iff, List.exists_mem_cons_iff, ih2 x]
      · rw [if_neg hn] at h
        cases h

/-! ### Clearing lemmas -/

theorem clear_fold_nodes_eq {V : Type} :
    ∀ (L : List (String × Option (MStep V))) (g : MultiPipeline V),
      (L.foldl (fun acc nd => clear_step_output acc nd.1) g).nodes = g.nodes := by
  intro L
  induction L with
  | nil => intro g; rfl
  | cons nd rest ih => intro g; exact ih _

theorem clear_fold_edges_eq {V : Type} :
    ∀ (L : List (String × Option (MStep V))) (g : MultiPipeline V),
      (L.foldl (fun acc nd => clear_step_output acc nd.1) g).edges = g.edges := by
  intro L
  induction L with
  | nil => intro g; rfl
  | cons nd rest ih => intro g; exact ih _

theorem clear_all_nodes_eq {V : Type} (g : MultiPipeline V) :
    (clear_all_outputs g).nodes = g.nodes :=
  clear_fold_nodes_eq g.nodes g

theorem clear_all_edges_eq {V : Type} (g : MultiPipeline V) :
    (clear_all_outputs g).edges = g.edges :=
  clear_fold_edges_eq g.nodes g

theorem clear_fold_outputs_subset {V : Type} :
    ∀ (L : List (String × Option (MStep V))) (g : MultiPipeline V),
      (L.foldl (fun acc nd => clear_step_output acc nd.1) g).outputs ⊆ g.outputs := by
  intro L
  induction L with
  | nil => intro g kv h; exact h
  | cons nd rest ih =>
      intro g kv h
      simp only [List.foldl_cons] at h
      have h2 : kv ∈ (clear_step_output g nd.1).outputs := ih _ h
      have h3 : kv ∈ g.outputs.filter (fun kv => kv.1 ≠ nd.1) := h2
      exact (List.mem_filter.mp h3).1

theorem clear_fold_no_keys {V : Type} :
    ∀ (L : List (String × Option (MStep V))) (g : MultiPipeline V) (kv : String × Payload V),
      kv ∈ (L.foldl (fun acc nd => clear_step_output acc nd.1) g).outputs →
      kv.1 ∉ L.map (fun nd => nd.1) := by
  intro L
  induction L with
  | nil => intro g kv _ h; cases h
  | cons nd rest ih =>
      intro g kv h hmem
      simp only [List.map_cons] at hmem
      simp only [List.foldl_cons] at h
      rcases List.mem_cons.mp hmem with h1 | h2
      · have hsub := clear_fold_outputs_subset rest (clear_step_output g nd.1) h
        have := (List.mem_filter.mp hsub).2
        simp only [decide_eq_true_iff] at this
        exact this h1
      · exact ih _ kv h h2

theorem clear_step_eq_self {V : Type} (g : MultiPipeline V) (n : String)
    (h : ∀ kv ∈ g.outputs, kv.1 ≠ n) : clear_step_output g n = g := by
  unfold clear_step_output
  have : g.outputs.filter (fun kv => kv.1 ≠ n) = g.outputs := by
    apply List.filter_eq_self.mpr
    intro kv hkv
    simpa using h kv hkv
  rw [this]

theorem clear_fold_eq_self {V : Type} :
    ∀ (L : List (String × Option (MStep V))) (g : MultiPipeline V),
      (∀ kv ∈ g.outputs, kv.1 ∉ L.map (fun nd => nd.1)) →
      L.foldl (fun acc nd => clear_step_output acc nd.1) g = g := by
  intro L
  induction L with
  | nil => intro g _; rfl
  | cons nd rest ih =>
      intro g h
      simp only [List.foldl_cons]
      have hstep : clear_step_output g nd.1 = g := by
        apply clear_step_eq_self
        intro kv hkv he
        exact h kv hkv (by simp [he])
      rw [hstep]
      apply ih
      intro kv hkv hmem
      refine h kv hkv ?_
      rw [List.map_cons]
      exact List.mem_cons.mpr (Or.inr hmem)

theorem clear_all_idem {V : Type} (g : MultiPipeline V) :
    clear_all_outputs (clear_all_outputs g) = clear_all_outputs g := by
  show (clear_all_outputs g).nodes.foldl
      (fun acc nd => clear_step_output acc nd.1) (clear_all_outputs g)
    = clear_all_outputs g
  rw [clear_all_nodes_eq]
  apply clear_fold_eq_self
  intro kv hkv
  exact clear_fold_no_keys g.nodes g kv hkv

/-! ### Execution-loop lemmas -/

theorem lookup_setOutput_self {V : Type} (g : MultiPipeline V) (n : String)
    (p : Payload V) : lookupOutput (setOutput g n p) n = some p := by
  unfold lookupOutput setOutput
  simp [List.lookup]

theorem lookup_setOutput_isSome {V : Type} (g : MultiPipeline V)
    (m n : String) (p : Payload V)
    (h : (lookupOutput g n).isSome = true) :
    (lookupOutput (setOutput g m p) n).isSome = true := by
  unfold lookupOutput at h
  unfold lookupOutput setOutput
  simp only [List.lookup]
  by_cases he : n = m
  · rw [beq_iff_eq.mpr he]
    rfl
  · rw [beq_eq_false_iff_ne.mpr he]
    exact h

theorem execNode_ok_shape {V : Type} {g g' : MultiPipeline V}
    {input_info : Payload V} {fit_node_names : List String} {n : String}
    (h : execNode g input_info fit_node_names n = .ok g') :
    ∃ p, g' = setOutput g n p := by
  unfold execNode at h
  cases hstep : stepOf g n with
  | none => rw [hstep] at h; cases h
  | some s =>
      rw [hstep] at h
      cases s with
      | dataLoader load_data => exact ⟨_, (Except.ok.inj h).symm⟩
      | superv ft tf =>
          cases hti : translate_inputs g n with
          | error e => rw [hti] at h; cases h
          | ok input_dict =>
              rw [hti] at h
              simp only [Except.bind] at h
              by_cases hf : n ∈ fit_node_names
              · rw [if_pos hf] at h
                cases hts : translate_superv g n with
                | error e => rw [hts] at h; cases h
                | ok superv_dict =>
                    rw [hts] at h
                    simp only [Except.bind] at h
                    exact ⟨_, (Except.ok.inj h).symm⟩
              · rw [if_neg hf] at h
                exact ⟨_, (Except.ok.inj h).symm⟩
      | unsuperv ft tf =>
          cases hti : translate_inputs g n with
          | error e => rw [hti] at h; cases h
          | ok input_dict =>
              rw [hti] at h
              simp only [Except.bind] at h
              by_cases hf : n ∈ fit_node_names
              · rw [if_pos hf] at h
                exact ⟨_, (Except.ok.inj h).symm⟩
              · rw [if_neg hf] at h
                exact ⟨_, (Except.ok.inj h).symm⟩
      | other => cases h

theorem runNodes_trace {V : Type} :
    ∀ (lst : List String) (g g' : MultiPipeline V) (input_info : Payload V)
      (fit_node_names : List String) (tr : List String),
      runNodes g input_info fit_node_names lst = (g', tr, none) → tr = lst := by
  intro lst
  induction lst with
  | nil =>
      intro g g' input_info fits tr h
      simp only [runNodes, Prod.mk.injEq] at h
      exact h.2.1.symm
  | cons n rest ih =>
      intro g g' input_info fits tr h
      simp only [runNodes] at h
      cases hexec : execNode g input_info fits n with
      | error e =>
          simp only [hexec] at h
          simp only [Prod.mk.injEq] at h
          cases h.2.2
      | ok g₁ =>
          simp only [hexec] at h
          rcases hE : runNodes g₁ input_info fits rest with ⟨g₂, tr₂, e₂⟩
          rw [hE] at h
          simp only [Prod.mk.injEq] at h
          obtain ⟨h1, h2, h3⟩ := h
          have htr2 : tr₂ = rest := by
            apply ih g₁ g₂ input_info fits tr₂
            rw [hE, h3]
          rw [← h2, htr2]

theorem runNodes_graph_preserves_isSome {V : Type} :
    ∀ (lst : List String) (g : MultiPipeline V) (input_info : Payload V)
      (fit_node_names : List String) (x : String),
      (lookupOutput g x).isSome = true →
      (lookupOutput (runNodes g input_info fit_node_names lst).1 x).isSome = true := by
  intro lst
  induction lst with
  | nil => intro g input_info fits x h; exact h
  | cons n rest ih =>
      intro g input_info fits x h
      simp only [runNodes]
      cases hexec : execNode g input_info fits n with
      | error e => exact h
      | ok g₁ =>
          obtain ⟨p, hp⟩ := execNode_ok_shape hexec
          subst hp
          exact ih _ input_info fits x (lookup_setOutput_isSome g n x p h)

theorem runNodes_outputs_set {V : Type} :
    ∀ (lst : List String) (g g' : MultiPipeline V) (input_info : Payload V)
      (fit_node_names : List String) (tr : List String),
      runNodes g input_info fit_node_names lst = (g', tr, none) →
      ∀ n ∈ lst, (lookupOutput g' n).isSome = true := by
  intro lst
  induction lst with
  | nil => intro g g' input_info fits tr _ n hn; cases hn
  | cons m rest ih =>
      intro g g' input_info fits tr h n hn
      simp only [runNodes] at h
      cases hexec : execNode g input_info fits m with
      | error e =>
          simp only [hexec] at h
          simp only [Prod.mk.injEq] at h
          cases h.2.2
      | ok g₁ =>
          simp only [hexec] at h
          rcases hE : runNodes g₁ input_info fits rest with ⟨g₂, tr₂, e₂⟩
          rw [hE] at h
          simp only [Prod.mk.injEq] at h
          obtain ⟨h1, h2, h3⟩ := h
          subst h1
          rcases List.mem_cons.mp hn with hcase | hcase
          · subst hcase
            obtain ⟨p, hp⟩ := execNode_ok_shape hexec
            have hs : (lookupOutput g₁ n).isSome = true := by
              rw [hp]
              rw [lookup_setOutput_self]
              rfl
            have := runNodes_graph_preserves_isSome rest g₁ input_info fits n hs
            rw [hE] at this
            exact this
          · apply ih g₁ g₂ input_info fits tr₂ _ n hcase
            rw [hE, h3]

theorem nodeNames_clear_all {V : Type} (g : MultiPipeline V) :
    nodeNames (clear_all_outputs g) = nodeNames g := by
  unfold nodeNames
  rw [clear_all_nodes_eq]

theorem edgePairs_clear_all {V : Type} (g : MultiPipeline V) :
    edgePairs (clear_all_outputs g) = edgePairs g := by
  unfold edgePairs
  rw [clear_all_edges_eq]

end Millet

/-- C1: `MultiPipeline.run` first clears every cached output — rerunning on
the already-cleared graph yields the identical outcome — then executes
exactly those nodes from which a requested output or fit target is
reachable along directed edges, each exactly once, in an order where every
edge's source precedes its target and ties among simultaneously-ready
nodes are broken lexicographically by node name; it returns, for each
requested output name, the payload computed for that node in the final
graph, and every requested output is populated. -/
theorem C1_run_topological_execution {V : Type} (g₀ : Millet.MultiPipeline V)
    (input_info : Payload V) (outs fits : List String)
    (g' : Millet.MultiPipeline V) (tr : List String)
    (res : List (String × Option (Payload V)))
    (hwf : Millet.WF g₀)
    (hrun : Millet.run g₀ input_info outs fits = (g', tr, .ok res)) :
    Millet.run (Millet.clear_all_outputs g₀) input_info outs fits
      = Millet.run g₀ input_info outs fits ∧
    tr.Nodup ∧
    (∀ x, x ∈ tr ↔ x ∈ Millet.nodeNames g₀ ∧
        ∃ t ∈ outs ++ fits, Millet.Reaches (Millet.edgePairs g₀) x t) ∧
    (∀ u v, (u, v) ∈ Millet.edgePairs g₀ → u ∈ tr → v ∈ tr →
        [u, v].Sublist tr) ∧
    (∀ l₁ m l₂, tr = l₁ ++ m :: l₂ → ∀ n ∈ l₂,
        (∀ u, (u, n) ∈ Millet.edgePairs g₀ → u ∈ tr → u ∈ l₁) → m ≤ n) ∧
    res = outs.map (fun n => (n, Millet.lookupOutput g' n)) ∧
    (∀ n ∈ outs, (Millet.lookupOutput g' n).isSome = true) := by
  have hclear : Millet.run (Millet.clear_all_outputs g₀) input_info outs fits
      = Millet.run g₀ input_info outs fits := by
    simp only [Millet.run, Millet.clear_all_idem]
  refine ⟨hclear, ?_⟩
  simp only [Millet.run] at hrun
  cases hanc : Millet.ancestorsList (Millet.clear_all_outputs g₀)
      ((outs ++ fits).dedup) with
  | error e =>
      simp only [hanc, Prod.mk.injEq] at hrun
      exact Except.noConfusion hrun.2.2
  | ok ancSets =>
      simp only [hanc] at hrun
      cases hred : Millet.reduce1 Millet.listUnion ancSets with
      | error e =>
          simp only [hred, Prod.mk.injEq] at hrun
          exact Except.noConfusion hrun.2.2
      | ok ancs =>
          simp only [hred] at hrun
          cases hsort : Millet.lexTopoSort
              ((Millet.nodeNames (Millet.clear_all_outputs g₀)).filter
                (fun x =>
                  (Millet.listUnion ((outs ++ fits).dedup) ancs).contains x))
              ((Millet.edgePairs (Millet.clear_all_outputs g₀)).filter
                (fun e =>
                  (Millet.listUnion ((outs ++ fits).dedup) ancs).contains e.1
                  &&
                  (Millet.listUnion ((outs ++ fits).dedup) ancs).contains e.2))
              with
          | none =>
              simp only [hsort, Prod.mk.injEq] at hrun
              exact Except.noConfusion hrun.2.2
          | some order =>
              simp only [hsort] at hrun
              rcases hE : Millet.runNodes (Millet.clear_all_outputs g₀)
                  input_info fits order with ⟨g₂, tr₂, e₂⟩
              rw [hE] at hrun
              cases e₂ with
              | some e =>
                  simp only [Prod.mk.injEq] at hrun
                  exact Except.noConfusion hrun.2.2
              | none =>
                  simp only [Prod.mk.injEq] at hrun
                  obtain ⟨hg2, htr2, hres⟩ := hrun
                  have hresEq := Except.ok.inj hres
                  obtain ⟨hupN, hancChar⟩ :=
                    Millet.ancestorsList_ok ((outs ++ fits).dedup) ancSets hanc
                  have hmemAncs := Millet.reduce1_listUnion_mem hred
                  have hNnd : (Millet.nodeNames
                      (Millet.clear_all_outputs g₀)).Nodup := by
                    rw [Millet.nodeNames_clear_all]
                    exact hwf.1
                  have hsubnd := hNnd.filter
                    (fun x =>
                      (Millet.listUnion ((outs ++ fits).dedup) ancs).contains x)
                  simp only [Millet.lexTopoSort] at hsort
                  have hmem := Millet.kahn_mem _ _ order hsubnd hsort
                  have hnd := Millet.kahn_nodup _ _ order hsubnd hsort
                  have hord := Millet.kahn_order _ _ order hsubnd hsort
                  have htie := Millet.kahn_tiebreak _ _ order hsubnd hsort
                  have htrOrd : tr₂ = order :=
                    Millet.runNodes_trace order _ g₂ input_info fits tr₂ hE
                  have htr : tr = order := htr2.symm.trans htrOrd
                  have hsubmem : ∀ x,
                      x ∈ (Millet.nodeNames
                          (Millet.clear_all_outputs g₀)).filter
                        (fun x => (Millet.listUnion ((outs ++ fits).dedup)
                          ancs).contains x) ↔
                      x ∈ Millet.nodeNames g₀ ∧
                        x ∈ Millet.listUnion ((outs ++ fits).dedup) ancs := by
                    intro x
                    rw [List.mem_filter]
                    constructor
                    · rintro ⟨h1, h2⟩
                      rw [Millet.nodeNames_clear_all] at h1
                      exact ⟨h1, by simpa using h2⟩
                    · rintro ⟨h1, h2⟩
                      refine ⟨?_, by simpa using h2⟩
                      rw [Millet.nodeNames_clear_all]
                      exact h1
                  have htoRun : ∀ x, x ∈ Millet.nodeNames g₀ →
                      (x ∈ Millet.listUnion ((outs ++ fits).dedup) ancs ↔
                        ∃ t ∈ outs ++ fits,
                          Millet.Reaches (Millet.edgePairs g₀) x t) := by
                    intro x hx
                    rw [Millet.mem_listUnion]
                    constructor
                    · rintro (h | h)
                      · exact ⟨x, List.mem_dedup.mp h, Millet.Reaches.refl x⟩
                      · obtain ⟨t, ht, hxt⟩ :=
                          (hancChar x).mp ((hmemAncs x).mp h)
                        obtain ⟨hxN, hne, hreach⟩ :=
                          Millet.mem_ancestorsOf.mp hxt
                        refine ⟨t, List.mem_dedup.mp ht, ?_⟩
                        have hs := Millet.reachesB_sound _ x t hreach
                        rwa [Millet.edgePairs_clear_all] at hs
                    · rintro ⟨t, ht, hr⟩
                      by_cases hxt : x = t
                      · exact Or.inl (List.mem_dedup.mpr (hxt ▸ ht))
                      · refine Or.inr ?_
                        rw [hmemAncs x, hancChar x]
                        refine ⟨t, List.mem_dedup.mpr ht, ?_⟩
                        rw [Millet.mem_ancestorsOf]
                        refine ⟨?_, hxt, ?_⟩
                        · rw [Millet.nodeNames_clear_all]
                          exact hx
                        · rw [Millet.edgePairs_clear_all]
                          exact Millet.reachesB_complete hr
                  have hc : ∀ x, x ∈ tr ↔ x ∈ Millet.nodeNames g₀ ∧
                      ∃ t ∈ outs ++ fits,
                        Millet.Reaches (Millet.edgePairs g₀) x t := by
                    intro x
                    rw [htr, hmem x, hsubmem x]
                    constructor
                    · rintro ⟨h1, h2⟩
                      exact ⟨h1, (htoRun x h1).mp h2⟩
                    · rintro ⟨h1, h2⟩
                      exact ⟨h1, (htoRun x h1).mpr h2⟩
                  have hd : ∀ u v, (u, v) ∈ Millet.edgePairs g₀ → u ∈ tr →
                      v ∈ tr → [u, v].Sublist tr := by
                    intro u v huv hu hv
                    rw [htr] at hu hv ⊢
                    have hu' := (hmem u).mp hu
                    have hv' := (hmem v).mp hv
                    refine hord u v ?_ hu' hv'
                    rw [List.mem_filter]
                    refine ⟨?_, ?_⟩
                    · rw [Millet.edgePairs_clear_all]
                      exact huv
                    · have h1 := ((hsubmem u).mp hu').2
                      have h2 := ((hsubmem v).mp hv').2
                      simp only [Bool.and_eq_true]
                      exact ⟨by simpa using h1, by simpa using h2⟩
                  have htb : ∀ l₁ m l₂, tr = l₁ ++ m :: l₂ → ∀ n ∈ l₂,
                      (∀ u, (u, n) ∈ Millet.edgePairs g₀ → u ∈ tr →
                        u ∈ l₁) → m ≤ n := by
                    intro l₁ m l₂ hL n hn hpred
                    refine htie l₁ m l₂ ?_ n hn ?_
                    · rw [← htr]
                      exact hL
                    · intro u hu hurem
                      refine hpred u ?_ ?_
                      · have h1 := (List.mem_filter.mp hu).1
                        rwa [Millet.edgePairs_clear_all] at h1
                      · rw [htr]
                        exact (hmem u).mpr hurem
                  have hf2 : ∀ n ∈ outs,
                      (Millet.lookupOutput g₂ n).isSome = true := by
                    intro n hn
                    refine Millet.runNodes_outputs_set order _ g₂ input_info
                      fits tr₂ hE n ?_
                    have hnUp : n ∈ (outs ++ fits).dedup :=
                      List.mem_dedup.mpr (List.mem_append.mpr (Or.inl hn))
                    have hnN : n ∈ Millet.nodeNames g₀ := by
                      have h1 := Millet.hasNodeB_iff.mp (hupN n hnUp)
                      rwa [Millet.nodeNames_clear_all] at h1
                    refine (hmem n).mpr ?_
                    refine (hsubmem n).mpr ?_
                    exact ⟨hnN, Millet.mem_listUnion.mpr (Or.inl hnUp)⟩
                  refine ⟨?_, hc, hd, htb, ?_, ?_⟩
                  · rw [htr]
                    exact hnd
                  · rw [← hg2]
                    exact hresEq.symm
                  · rw [← hg2]
                    exact hf2

/-- Witness for C1: running the diamond pipeline `A→B, A→C, B→D, C→D` (plus
the unrelated node `E`) for output `D` executes `A, B, C, D` in
lexicographic topological order, clears the stale cached output, and
returns the payload computed for `D`. -/
theorem C1_witness :
    Millet.WF Examples.diamond ∧
    Millet.run Examples.diamond [] [("D")] [] =
      (Examples.diamondFinal, [("A"), ("B"), ("C"), ("D")],
       .ok [(("D"), some [(("x"), 0)])]) ∧
    (Millet.run (Millet.clear_all_outputs Examples.diamond) [] [("D")] []
        = Millet.run Examples.diamond [] [("D")] [] ∧
     ([("A"), ("B"), ("C"), ("D")] : List String).Nodup ∧
     (∀ x, x ∈ ([("A"), ("B"), ("C"), ("D")] : List String) ↔
        x ∈ Millet.nodeNames Examples.diamond ∧
        ∃ t ∈ [("D")] ++ ([] : List String),
          Millet.Reaches (Millet.edgePairs Examples.diamond) x t) ∧
     (∀ u v, (u, v) ∈ Millet.edgePairs Examples.diamond →
        u ∈ ([("A"), ("B"), ("C"), ("D")] : List String) →
        v ∈ ([("A"), ("B"), ("C"), ("D")] : List String) →
        [u, v].Sublist [("A"), ("B"), ("C"), ("D")]) ∧
     (∀ l₁ m l₂, ([("A"), ("B"), ("C"), ("D")] : List String)
          = l₁ ++ m :: l₂ → ∀ n ∈ l₂,
        (∀ u, (u, n) ∈ Millet.edgePairs Examples.diamond →
          u ∈ ([("A"), ("B"), ("C"), ("D")] : List String) → u ∈ l₁) →
        m ≤ n) ∧
     [(("D"), some [(("x"), 0)])] = [("D")].map (fun n =>
        (n, Millet.lookupOutput Examples.diamondFinal n)) ∧
     (∀ n ∈ ([("D")] : List String),
        (Millet.lookupOutput Examples.diamondFinal n).isSome = true)) :=
  ⟨by unfold Millet.WF; decide, by rfl,
   C1_run_topological_execution Examples.diamond [] [("D")] []
     Examples.diamondFinal [("A"), ("B"), ("C"), ("D")]
     [(("D"), some [(("x"), 0)])] (by unfold Millet.WF; decide) (by rfl)⟩

end Gradus
